import Mathlib

set_option maxRecDepth 10000

/-!
Shallow embedding of the text-chunking and ingestion pipeline of the
backend-ai-chat repository, together with the request/persistence models the
claims need.  Text is modelled as `List Char`; the embedded functions follow
`src/utils/text_utils.py`, `src/services/pdf_processor.py`,
`src/services/pinecone_service.py`, `src/database/models.py`,
`src/database/db.py`, `src/services/chat_service.py` and `src/main.py`.
-/

/-- The space character, written by code point to keep literals uniform. -/
def spChar : Char := ' '

/-- Convert a string literal to the `List Char` representation used throughout. -/
def s2l (s : String) : List Char := s.data

/-- The Python whitespace set: what the regex class `\s` matches on `str`
patterns, and what `str.strip()` removes.  Covers ASCII whitespace, the C0
information separators, NEL, NBSP and the Unicode space/line/paragraph
separators. -/
def pyIsSpace (c : Char) : Bool :=
  c = ' ' || c = '\t' || c = '\n' || c = '\x0b' || c = '\x0c' || c = '\r' ||
  c = '\x1c' || c = '\x1d' || c = '\x1e' || c = '\x1f' ||
  c = '\u0085' || c = '\u00a0' || c = '\u1680' ||
  c = '\u2000' || c = '\u2001' || c = '\u2002' || c = '\u2003' || c = '\u2004' ||
  c = '\u2005' || c = '\u2006' || c = '\u2007' || c = '\u2008' || c = '\u2009' ||
  c = '\u200a' || c = '\u2028' || c = '\u2029' || c = '\u202f' || c = '\u205f' ||
  c = '\u3000'

/-- Python `str.isprintable`, modelled for the code-point ranges relevant to
this development: the C0/C1 controls and DEL, the Unicode space separators
other than U+0020, the line/paragraph separators, and the common format
characters; code points outside these ranges are treated as printable. -/
def pyIsPrintable (c : Char) : Bool :=
  !(c.toNat < 0x20 || (0x7f ≤ c.toNat && c.toNat ≤ 0x9f) ||
    c.toNat = 0xa0 || c.toNat = 0xad || c.toNat = 0x1680 ||
    (0x2000 ≤ c.toNat && c.toNat ≤ 0x200f) ||
    c.toNat = 0x2028 || c.toNat = 0x2029 ||
    (0x202a ≤ c.toNat && c.toNat ≤ 0x202e) ||
    c.toNat = 0x202f || c.toNat = 0x205f || c.toNat = 0x2060 ||
    c.toNat = 0x3000 || c.toNat = 0xfeff)

/-- Drop the leading Python-whitespace of a list (`lstrip`). -/
def dropSp (l : List Char) : List Char := l.dropWhile pyIsSpace

/-- Drop the trailing Python-whitespace of a list (`rstrip`). -/
def rdropSp (l : List Char) : List Char := (dropSp l.reverse).reverse

/-- Python `str.strip()`: remove leading and trailing whitespace. -/
def pyStrip (l : List Char) : List Char := rdropSp (dropSp l)

/-- One pass of `re.sub(r'\s+', ' ', text)`: every maximal run of whitespace
characters is replaced by a single space.  The boolean records whether the
previous character belonged to a whitespace run. -/
def collapseAux : Bool → List Char → List Char
  | _, [] => []
  | prevSp, c :: cs =>
    if pyIsSpace c then
      if prevSp then collapseAux true cs else spChar :: collapseAux true cs
    else c :: collapseAux false cs

/-- `clean_text` from src/utils/text_utils.py: collapse whitespace runs to a
single space, drop non-printable characters, then strip. -/
def clean_text (t : List Char) : List Char :=
  pyStrip ((collapseAux false t).filter pyIsPrintable)

/-- `estimate_tokens` from src/utils/text_utils.py: `len(text) // 4`. -/
def estimate_tokens (t : List Char) : Nat := t.length / 4

/-- Sentence-final punctuation recognised by the chunker's split pattern. -/
def sentEndChar (c : Char) : Bool := c = '.' || c = '!' || c = '?'

/-- Whether the reversed accumulator of the sentence splitter ends in
sentence-final punctuation (the regex lookbehind `(?<=[.!?])`). -/
def sentEnd (curRev : List Char) : Bool :=
  match curRev with
  | [] => false
  | c :: _ => sentEndChar c

/-- Scanner for `re.split(r'(?<=[.!?])\s+', text)`.  `cur` is the current
segment accumulated in reverse; when `skip` is set the scanner is consuming
the whitespace run of a match.  A split occurs at a whitespace character
standing right after `.`, `!` or `?`; the matched run is consumed, and the
segment before the run is emitted. -/
def ssAux : List Char → Bool → List Char → List (List Char)
  | cur, _, [] => [cur.reverse]
  | cur, true, c :: cs =>
    if pyIsSpace c then ssAux cur true cs else ssAux [c] false cs
  | cur, false, c :: cs =>
    if pyIsSpace c && sentEnd cur then cur.reverse :: ssAux [] true cs
    else ssAux (c :: cur) false cs

/-- `re.split(r'(?<=[.!?])\s+', text)` as used by `chunk_text`. -/
def splitSentences (t : List Char) : List (List Char) := ssAux [] false t

/-- The last `n` characters of a list (Python `l[-n:]` for `n > 0`). -/
def takeRight (n : Nat) (l : List Char) : List Char := l.drop (l.length - n)

/-- The accumulation loop of `chunk_text` (src/utils/text_utils.py lines
60-83).  `mc`/`oc` are the character budgets `max_chars`/`overlap_chars`;
`cur` is `current_chunk`, `acc` the chunks emitted so far.  A sentence whose
addition would overflow a non-empty `cur` closes the chunk (stripped) and
seeds the next one from the last `oc` characters of `cur` when `cur` is
longer than `oc` (and `oc > 0`); otherwise sentences are space-joined onto
`cur`.  At the end a non-blank `cur` is flushed, stripped. -/
def chunkGo (mc oc : Nat) : List (List Char) → List Char → List (List Char) → List (List Char)
  | [], cur, acc => if pyStrip cur = [] then acc else acc ++ [pyStrip cur]
  | s :: ss, cur, acc =>
    if mc < cur.length + s.length ∧ cur ≠ [] then
      chunkGo mc oc ss
        (if 0 < oc ∧ oc < cur.length then takeRight oc cur ++ spChar :: s else s)
        (acc ++ [pyStrip cur])
    else
      chunkGo mc oc ss (if cur = [] then s else cur ++ spChar :: s) acc

/-- `chunk_text` from src/utils/text_utils.py: token budgets are converted to
character budgets at 4 characters per token, the text is split into
sentence-like units, and the units are accumulated greedily with overlap. -/
def chunk_text (text : List Char) (max_tokens overlap : Nat) : List (List Char) :=
  chunkGo (max_tokens * 4) (overlap * 4) (splitSentences text) [] []

/-- `validate_chunk` from src/utils/text_utils.py: true iff the stripped
chunk is at least `min_length` characters long. -/
def validate_chunk (chunk : List Char) (min_length : Nat) : Bool :=
  min_length ≤ (pyStrip chunk).length

/-- `config.CHUNK_SIZE` (default 800). -/
def CHUNK_SIZE : Nat := 800

/-- `config.CHUNK_OVERLAP` (default 100). -/
def CHUNK_OVERLAP : Nat := 100

/-- One chunk-with-metadata record assembled by `PDFProcessor.process_pdf`. -/
structure ChunkRecord where
  text : List Char
  filename : List Char
  chunk_index : Nat
  total_chunks : Nat
  source : List Char
deriving DecidableEq

/-- The metadata-assembly loop of `process_pdf` (src/services/pdf_processor.py
lines 132-146): `for idx, chunk in enumerate(chunks): if validate_chunk(chunk):
append record`.  `i` is the running `enumerate` index and `total` is
`len(chunks)` of the full chunk list. -/
def assembleGo (fn : List Char) (total : Nat) : Nat → List (List Char) → List ChunkRecord
  | _, [] => []
  | i, c :: cs =>
    if validate_chunk c 10 then
      ⟨c, fn, i, total, s2l "pdf"⟩ :: assembleGo fn total (i + 1) cs
    else assembleGo fn total (i + 1) cs

/-- Metadata assembly over a chunk list, as `process_pdf` performs it. -/
def assembleChunks (fn : List Char) (chunks : List (List Char)) : List ChunkRecord :=
  assembleGo fn chunks.length 0 chunks

/-- The OCR-fallback trigger of `process_pdf` (src/services/pdf_processor.py
line 106): `if not raw_text or len(raw_text.strip()) < 50`. -/
def ocrTriggered (raw : List Char) : Bool :=
  raw = [] || (pyStrip raw).length < 50

/-- `PDFProcessor.process_pdf` (src/services/pdf_processor.py lines 92-148)
with the two I/O boundaries passed in as data: `raw` is what
`extract_text_from_pdf` returned and `ocr` what `ocr_pdf_page` would return.
When extraction yields blank or near-blank text the OCR result is used
instead, but only when, stripped, it is longer than 20 characters; otherwise
the empty list is returned.  The accepted text is cleaned, chunked with the
configured budgets, and assembled into metadata records. -/
def process_pdf (fn raw ocr : List Char) : List ChunkRecord :=
  let doc : Option (List Char) :=
    if ocrTriggered raw then
      if ocr ≠ [] ∧ 20 < (pyStrip ocr).length then some ocr else none
    else some raw
  match doc with
  | none => []
  | some t =>
    if t = [] then []
    else assembleChunks fn (chunk_text (clean_text t) CHUNK_SIZE CHUNK_OVERLAP)

/-- Space-join of a list of sentences, as the chunker's accumulation produces
it: `joinSp [s1, ..., sn] = s1 ++ " " ++ s2 ++ ... ++ " " ++ sn`. -/
def joinSp : List (List Char) → List Char
  | [] => []
  | [s] => s
  | s :: t :: ss => s ++ spChar :: joinSp (t :: ss)

/-- Whether the first character, if any, is not whitespace. -/
def headOkB (l : List Char) : Bool := l.head?.all fun c => !pyIsSpace c

/-- Whether the last character, if any, is not whitespace. -/
def lastOkB (l : List Char) : Bool := l.getLast?.all fun c => !pyIsSpace c

/-- No two adjacent whitespace characters. -/
def noTwoB : List Char → Bool
  | [] => true
  | [_] => true
  | a :: b :: t => (!(pyIsSpace a && pyIsSpace b)) && noTwoB (b :: t)

/-- Whitespace-normalized non-empty text: non-blank at both ends and with no
two adjacent whitespace characters — the shape `clean_text` produces. -/
def TextClean (t : List Char) : Prop :=
  t ≠ [] ∧ headOkB t = true ∧ lastOkB t = true ∧ noTwoB t = true

instance : DecidablePred TextClean := fun t => by
  unfold TextClean; infer_instance

/-- A sentence as the splitter emits it from normalized text: non-empty,
non-blank at both ends, no two adjacent whitespace characters. -/
def NiceSent (s : List Char) : Prop :=
  s ≠ [] ∧ headOkB s = true ∧ lastOkB s = true ∧ noTwoB s = true

instance : DecidablePred NiceSent := fun s => by
  unfold NiceSent; infer_instance

/-- The spec's chunk-coverage property for one input: each chunk is an
overlap-seed prefix followed by the space-join of a group of sentences, the
groups are non-empty, and in order they partition the sentence sequence of
the input exactly. -/
def SentenceCoverage (text : List Char) (max_tokens overlap : Nat) : Prop :=
  ∃ seeds groups, seeds.length = groups.length ∧
    chunk_text text max_tokens overlap =
      List.zipWith (fun p g => p ++ joinSp g) seeds groups ∧
    groups.flatten = splitSentences text ∧
    ∀ g ∈ groups, g ≠ []

/-- The spec's overlap-presence relation between two consecutive chunks:
whenever the earlier chunk is longer than the overlap budget, the later chunk
starts with a (non-empty) tail of it. -/
def OvRel (oc : Nat) (a b : List Char) : Prop :=
  oc < a.length → ∃ k, 0 < k ∧ b.take k = takeRight k a

/-- The contiguity property claimed for an ingestion's records: indices are
exactly `0..N-1` in emission order and every record's `total_chunks` is the
record count `N`. -/
def ContiguousRecords (rs : List ChunkRecord) : Prop :=
  rs.map (fun r => r.chunk_index) = List.range rs.length ∧
  ∀ r ∈ rs, r.total_chunks = rs.length

instance : DecidablePred ContiguousRecords := fun rs => by
  unfold ContiguousRecords; infer_instance

/-- Pydantic validation of `QueryRequest` (src/database/models.py lines 29-33):
`query` has `min_length=1`, `top_k` has `ge=1` and `le=20`.  A request body
passes FastAPI validation iff this returns true; otherwise the request fails
with a pydantic `ValidationError`. -/
def queryRequestValid (query : List Char) (top_k : Int) : Bool :=
  1 ≤ query.length && 1 ≤ top_k && top_k ≤ 20

/-- Pydantic validation of `RetrieveRequest` (src/main.py lines 87-90):
`query: str`, `pdf_id: str = None`, `top_k: int = 5` — no bound is declared
on `top_k`, so every integer passes. -/
def retrieveRequestValid (_query : List Char) (_top_k : Int) : Bool := true

/-- The error kinds distinguishable at the service layer: a pydantic
`ValidationError`, or the bare `Exception` that `PineconeService` re-raises. -/
inductive PyErr
  | validationError
  | exception
deriving DecidableEq

/-- `PineconeService.query` (src/services/pinecone_service.py lines 91-129):
the call forwards `top_k` to the index unchecked — no validation of `top_k`
or of the query vector's dimension happens locally — and wraps any backend
failure in a bare `Exception`.  The external index is abstracted as a
function from `top_k` to either matches or a failure. -/
def pineconeQuery {α : Type} (backend : Int → Except Unit (List α)) (top_k : Int) :
    Except PyErr (List α) :=
  match backend top_k with
  | Except.ok ms => Except.ok ms
  | Except.error _ => Except.error PyErr.exception

/-- A row of the `chat_history` table (src/database/db.py lines 25-34):
`id` is the AUTOINCREMENT key, `timestamp` the insertion time. -/
structure MsgRow where
  id : Nat
  session_id : List Char
  message_type : List Char
  content : List Char
  timestamp : Nat
  metadata : Option (List Char)
deriving DecidableEq

/-- A row of the `sessions` table (src/database/db.py lines 37-45). -/
structure SessRow where
  id : List Char
  name : List Char
  mode : List Char
  pdf_id : Option (List Char)
  created_at : Nat
  updated_at : Nat
deriving DecidableEq

/-- The SQLite database state: both tables plus the AUTOINCREMENT counter. -/
structure DBState where
  messages : List MsgRow
  sessions : List SessRow
  nextId : Nat
deriving DecidableEq

/-- `ChatDatabase.save_message` (src/database/db.py lines 57-79): INSERT one
row into `chat_history` and return its id.  `now` stands for
`CURRENT_TIMESTAMP`.  No other table is touched. -/
def save_message (st : DBState) (sid mtype content : List Char)
    (metadata : Option (List Char)) (now : Nat) : DBState × Nat :=
  ({ st with
      messages := st.messages ++ [⟨st.nextId, sid, mtype, content, now, metadata⟩],
      nextId := st.nextId + 1 },
   st.nextId)

/-- `ChatService.save_conversation` (src/services/chat_service.py lines
15-55): save the user question, then the assistant answer with the retrieved
chunks as metadata. -/
def save_conversation (st : DBState) (sid question answer : List Char)
    (retrieved : Option (List Char)) (now : Nat) : DBState :=
  let st1 := (save_message st sid (s2l "user") question none now).1
  (save_message st1 sid (s2l "assistant") answer retrieved now).1

/-- `ChatDatabase.update_session_timestamp` (src/database/db.py lines
245-257): set `updated_at = now` on the session row with the given id. -/
def update_session_timestamp (st : DBState) (sid : List Char) (now : Nat) : DBState :=
  { st with
      sessions := st.sessions.map fun r =>
        if r.id = sid then { r with updated_at := now } else r }

/-- The `POST /messages` endpoint body (src/main.py lines 128-145): save the
message, then update the session timestamp. -/
def messagesEndpoint (st : DBState) (sid role content : List Char) (now : Nat) : DBState :=
  update_session_timestamp (save_message st sid role content none now).1 sid now

/-- The `updated_at` of the first session row with the given id, if any. -/
def sessionUpdatedAt (st : DBState) (sid : List Char) : Option Nat :=
  (st.sessions.find? fun r => r.id == sid).map fun r => r.updated_at

/-- Counterexample text for the size-bound claim: two 1600-character
sentences that together fill the budget exactly, then a short third. -/
def cex2text : List Char :=
  List.replicate 1599 'a' ++ '.' :: ' ' ::
    (List.replicate 1599 'b' ++ '.' :: ' ' :: ['c', '.'])

/-- Counterexample raw text for the metadata-contiguity claim: a 9-character
first sentence followed by a 3196-character one. -/
def cex1raw : List Char := s2l "Aa bb cc. " ++ List.replicate 3195 'a' ++ ['.']

/-- The first 1600-character sentence of `cex2text`. -/
def sentA : List Char := List.replicate 1599 'a' ++ ['.']

/-- The second 1600-character sentence of `cex2text`. -/
def sentB : List Char := List.replicate 1599 'b' ++ ['.']

/-- The long sentence of `cex1raw`. -/
def sentL : List Char := List.replicate 3195 'a' ++ ['.']

/-! ### Character-class facts -/

theorem pyIsSpace_sp : pyIsSpace spChar = true := by decide

theorem pyIsPrintable_sp : pyIsPrintable spChar = true := by decide

/-- The only printable Python-whitespace character is the plain space. -/
theorem space_printable_eq_sp {c : Char} (hs : pyIsSpace c = true)
    (hp : pyIsPrintable c = true) : c = spChar := by
  simp only [pyIsSpace, Bool.or_eq_true, decide_eq_true_eq] at hs
  rcases hs with ((((((((((((((((((((((((((((h | h) | h) | h) | h) | h) | h) | h) | h) | h) | h) | h) | h) | h) | h) | h) | h) | h) | h) | h) | h) | h) | h) | h) | h) | h) | h) | h) | h) <;>
    subst h <;> first | rfl | exact absurd hp (by decide)

/-! ### Strip algebra -/

theorem dropSp_cons_pos {c : Char} {l : List Char} (h : pyIsSpace c = true) :
    dropSp (c :: l) = dropSp l := by
  simp [dropSp, List.dropWhile_cons, h]

theorem dropSp_cons_neg {c : Char} {l : List Char} (h : pyIsSpace c = false) :
    dropSp (c :: l) = c :: l := by
  simp [dropSp, List.dropWhile_cons, h]

/-- Every list splits as its whitespace head plus its left-strip. -/
theorem dropSp_decomp (l : List Char) :
    ∃ a, l = a ++ dropSp l ∧ ∀ c ∈ a, pyIsSpace c = true := by
  induction l with
  | nil => exact ⟨[], rfl, by simp⟩
  | cons c cs ih =>
    by_cases h : pyIsSpace c = true
    · obtain ⟨a, ha, hsp⟩ := ih
      refine ⟨c :: a, ?_, ?_⟩
      · rw [dropSp_cons_pos h]; simpa using ha
      · intro d hd
        rcases List.mem_cons.1 hd with rfl | hd
        · exact h
        · exact hsp _ hd
    · rw [dropSp_cons_neg (by simpa using h)]
      exact ⟨[], rfl, by simp⟩

theorem headOk_dropSp (l : List Char) : headOkB (dropSp l) = true := by
  induction l with
  | nil => rfl
  | cons c cs ih =>
    by_cases h : pyIsSpace c = true
    · rw [dropSp_cons_pos h]; exact ih
    · rw [dropSp_cons_neg (by simpa using h)]
      simp [headOkB, h]

theorem dropSp_eq_self_of_headOk {l : List Char} (h : headOkB l = true) :
    dropSp l = l := by
  cases l with
  | nil => rfl
  | cons c cs =>
    simp only [headOkB, List.head?_cons, Option.all_some, Bool.not_eq_true'] at h
    exact dropSp_cons_neg h

theorem lastOk_eq_headOk_reverse (l : List Char) :
    lastOkB l = headOkB l.reverse := by
  simp [lastOkB, headOkB, List.head?_reverse]

theorem rdropSp_eq_self_of_lastOk {l : List Char} (h : lastOkB l = true) :
    rdropSp l = l := by
  rw [lastOk_eq_headOk_reverse] at h
  simp [rdropSp, dropSp_eq_self_of_headOk h]

/-- Every list splits as its right-strip plus its whitespace tail. -/
theorem rdropSp_decomp (l : List Char) :
    ∃ b, l = rdropSp l ++ b ∧ ∀ c ∈ b, pyIsSpace c = true := by
  obtain ⟨a, ha, hsp⟩ := dropSp_decomp l.reverse
  refine ⟨a.reverse, ?_, fun c hc => hsp _ (by simpa using hc)⟩
  rw [rdropSp]
  calc l = l.reverse.reverse := by simp
    _ = (a ++ dropSp l.reverse).reverse := by rw [← ha]
    _ = (dropSp l.reverse).reverse ++ a.reverse := by simp

theorem lastOk_rdropSp (l : List Char) : lastOkB (rdropSp l) = true := by
  rw [lastOk_eq_headOk_reverse, rdropSp, List.reverse_reverse]
  exact headOk_dropSp _

theorem headOk_append_left {l m : List Char} (h : headOkB (l ++ m) = true)
    (hne : l ≠ []) : headOkB l = true := by
  cases l with
  | nil => exact absurd rfl hne
  | cons c cs => simpa [headOkB] using h

theorem headOk_rdropSp {l : List Char} (h : headOkB l = true) :
    headOkB (rdropSp l) = true := by
  obtain ⟨b, hb, _⟩ := rdropSp_decomp l
  by_cases hn : rdropSp l = []
  · simp [hn, headOkB]
  · exact headOk_append_left (hb ▸ h) hn

theorem lastOk_dropSp {l : List Char} (h : lastOkB l = true) :
    lastOkB (dropSp l) = true := by
  obtain ⟨a, ha, _⟩ := dropSp_decomp l
  by_cases hn : dropSp l = []
  · simp [hn, lastOkB]
  · have : l.getLast? = (dropSp l).getLast? := by
      conv_lhs => rw [ha]
      simp [List.getLast?_append, Option.or_of_isSome,
        Option.isSome_iff_ne_none, hn]
    simpa [lastOkB, ← this] using h

theorem pyStrip_eq_self {l : List Char} (h1 : headOkB l = true)
    (h2 : lastOkB l = true) : pyStrip l = l := by
  rw [pyStrip, dropSp_eq_self_of_headOk h1, rdropSp_eq_self_of_lastOk h2]

theorem pyStrip_eq_dropSp_of_lastOk {l : List Char} (h : lastOkB l = true) :
    pyStrip l = dropSp l := by
  rw [pyStrip, rdropSp_eq_self_of_lastOk (lastOk_dropSp h)]

theorem headOk_pyStrip (l : List Char) : headOkB (pyStrip l) = true :=
  headOk_rdropSp (headOk_dropSp l)

theorem lastOk_pyStrip (l : List Char) : lastOkB (pyStrip l) = true :=
  lastOk_rdropSp _

theorem pyStrip_idem (l : List Char) : pyStrip (pyStrip l) = pyStrip l :=
  pyStrip_eq_self (headOk_pyStrip l) (lastOk_pyStrip l)

theorem pyStrip_length_le (l : List Char) : (pyStrip l).length ≤ l.length := by
  obtain ⟨a, ha, _⟩ := dropSp_decomp l
  obtain ⟨b, hb, _⟩ := rdropSp_decomp (dropSp l)
  have h1 : (dropSp l).length ≤ l.length := by
    conv_rhs => rw [ha]
    simp
  have h2 : (pyStrip l).length ≤ (dropSp l).length := by
    conv_rhs => rw [hb]
    simp [pyStrip]
  exact le_trans h2 h1

/-- A list with a non-whitespace character strips to something non-empty. -/
theorem pyStrip_ne_nil {l : List Char} {c : Char} (hc : c ∈ l)
    (hns : pyIsSpace c = false) : pyStrip l ≠ [] := by
  obtain ⟨a, ha, hasp⟩ := dropSp_decomp l
  have hc1 : c ∈ dropSp l := by
    rcases (List.mem_append.1 (ha ▸ hc)) with h | h
    · exact absurd (hasp _ h) (by simp [hns])
    · exact h
  obtain ⟨b, hb, hbsp⟩ := rdropSp_decomp (dropSp l)
  have hc2 : c ∈ pyStrip l := by
    rcases (List.mem_append.1 (hb ▸ hc1)) with h | h
    · exact h
    · exact absurd (hbsp _ h) (by simp [hns])
  exact List.ne_nil_of_mem hc2

theorem mem_pyStrip {l : List Char} {c : Char} (hc : c ∈ pyStrip l) : c ∈ l := by
  obtain ⟨a, ha, _⟩ := dropSp_decomp l
  obtain ⟨b, hb, _⟩ := rdropSp_decomp (dropSp l)
  rw [ha, hb]
  exact List.mem_append.2 (Or.inr (List.mem_append.2 (Or.inl hc)))

/-! ### Whitespace-run collapsing (`re.sub(r'\s+', ' ', ...)`) -/

theorem collapse_cons_neg {c : Char} {l : List Char} (h : pyIsSpace c = false) :
    ∀ b, collapseAux b (c :: l) = c :: collapseAux false l := by
  intro b; cases b <;> simp [collapseAux, h]

theorem noTwo_cons {a : Char} {l : List Char} :
    noTwoB (a :: l) = true ↔
      (∀ b ∈ l.head?, ¬(pyIsSpace a = true ∧ pyIsSpace b = true)) ∧ noTwoB l = true := by
  cases l with
  | nil => simp [noTwoB]
  | cons b t =>
    simp only [noTwoB, Bool.and_eq_true, Bool.not_eq_true', Bool.and_eq_false_iff,
      List.head?_cons, Option.mem_def, Option.some.injEq]
    constructor
    · rintro ⟨h1, h2⟩
      refine ⟨fun d hd => ?_, h2⟩
      subst hd
      rcases h1 with h | h <;> simp [h]
    · rintro ⟨h1, h2⟩
      refine ⟨?_, h2⟩
      have := h1 b rfl
      by_cases hsa : pyIsSpace a = true
      · right
        by_contra hb
        exact this ⟨hsa, by simpa using hb⟩
      · left; simpa using hsa

theorem headOk_collapse_true : ∀ l : List Char, headOkB (collapseAux true l) = true := by
  intro l
  induction l with
  | nil => rfl
  | cons c cs ih =>
    by_cases h : pyIsSpace c = true
    · simpa [collapseAux, h] using ih
    · rw [collapse_cons_neg (by simpa using h)]
      simp [headOkB, h]

theorem noTwo_collapse : ∀ (l : List Char) (b : Bool), noTwoB (collapseAux b l) = true := by
  intro l
  induction l with
  | nil => intro b; rfl
  | cons c cs ih =>
    intro b
    by_cases h : pyIsSpace c = true
    · cases b with
      | true => simpa [collapseAux, h] using ih true
      | false =>
        have hstep : collapseAux false (c :: cs) = spChar :: collapseAux true cs := by
          simp [collapseAux, h]
        rw [hstep, noTwo_cons]
        refine ⟨fun d hd hcontra => ?_, ih true⟩
        have hh := headOk_collapse_true cs
        cases hhead : (collapseAux true cs).head? with
        | none => simp [hhead] at hd
        | some e =>
          simp only [hhead, Option.mem_def, Option.some.injEq] at hd
          subst hd
          simp [headOkB, hhead, hcontra.2] at hh
    · rw [collapse_cons_neg (by simpa using h)]
      rw [noTwo_cons]
      exact ⟨fun d _ hcontra => absurd hcontra.1 (by simp [h]), ih false⟩

/-- Every character of the collapsed text is the plain space or a
non-whitespace character of the input. -/
theorem mem_collapse : ∀ (l : List Char) (b : Bool) (c : Char),
    c ∈ collapseAux b l → c = spChar ∨ (c ∈ l ∧ pyIsSpace c = false) := by
  intro l
  induction l with
  | nil => intro b c hc; simp [collapseAux] at hc
  | cons d ds ih =>
    intro b c hc
    by_cases h : pyIsSpace d = true
    · cases b with
      | true =>
        simp only [collapseAux, h, if_true] at hc
        rcases ih true c hc with h1 | ⟨h1, h2⟩
        · exact Or.inl h1
        · exact Or.inr ⟨List.mem_cons_of_mem _ h1, h2⟩
      | false =>
        simp only [collapseAux, h, if_true, if_false] at hc
        rcases List.mem_cons.1 hc with rfl | hc
        · exact Or.inl rfl
        · rcases ih true c hc with h1 | ⟨h1, h2⟩
          · exact Or.inl h1
          · exact Or.inr ⟨List.mem_cons_of_mem _ h1, h2⟩
    · rw [collapse_cons_neg (by simpa using h)] at hc
      rcases List.mem_cons.1 hc with rfl | hc
      · exact Or.inr ⟨List.mem_cons_self _ _, by simpa using h⟩
      · rcases ih false c hc with h1 | ⟨h1, h2⟩
        · exact Or.inl h1
        · exact Or.inr ⟨List.mem_cons_of_mem _ h1, h2⟩

/-- Collapsing is the identity on text that is already collapsed: no two
adjacent whitespace characters, every whitespace character the plain space. -/
theorem collapse_eq_self : ∀ l : List Char, noTwoB l = true →
    (∀ c ∈ l, pyIsSpace c = true → c = spChar) →
    collapseAux false l = l ∧ (headOkB l = true → collapseAux true l = l) := by
  intro l
  induction l with
  | nil => exact fun _ _ => ⟨rfl, fun _ => rfl⟩
  | cons c cs ih =>
    intro hnt hsp
    have hnt' : noTwoB cs = true := (noTwo_cons.1 hnt).2
    have hsp' : ∀ d ∈ cs, pyIsSpace d = true → d = spChar :=
      fun d hd => hsp d (List.mem_cons_of_mem _ hd)
    by_cases h : pyIsSpace c = true
    · have hc : c = spChar := hsp c (List.mem_cons_self _ _) h
      have hhead : headOkB cs = true := by
        cases cs with
        | nil => rfl
        | cons e es =>
          have := (noTwo_cons.1 hnt).1 e (by simp)
          simp only [headOkB, List.head?_cons, Option.all_some]
          by_contra he
          exact this ⟨h, by simpa using he⟩
      have hcs : collapseAux true cs = cs := (ih hnt' hsp').2 hhead
      constructor
      · subst hc
        simp [collapseAux, pyIsSpace_sp, hcs]
      · intro hho
        simp [headOkB, h] at hho
    · have hcs : collapseAux false cs = cs := (ih hnt' hsp').1
      have hstep := collapse_cons_neg (l := cs) (by simpa using h)
      exact ⟨by rw [hstep false, hcs], fun _ => by rw [hstep true, hcs]⟩

theorem noTwo_append_right {a l : List Char} (h : noTwoB (a ++ l) = true) :
    noTwoB l = true := by
  induction a with
  | nil => exact h
  | cons c cs ih => exact ih (noTwo_cons.1 h).2

theorem noTwo_append_left {l b : List Char} (h : noTwoB (l ++ b) = true) :
    noTwoB l = true := by
  induction l with
  | nil => rfl
  | cons c cs ih =>
    rcases noTwo_cons.1 h with ⟨hhead, htail⟩
    refine noTwo_cons.2 ⟨?_, ih htail⟩
    intro d hd
    apply hhead
    cases cs with
    | nil => simp at hd
    | cons e es => simpa using hd

theorem noTwo_pyStrip {l : List Char} (h : noTwoB l = true) :
    noTwoB (pyStrip l) = true := by
  obtain ⟨a, ha, _⟩ := dropSp_decomp l
  obtain ⟨b, hb, _⟩ := rdropSp_decomp (dropSp l)
  have h1 : noTwoB (dropSp l) = true := noTwo_append_right (ha ▸ h)
  exact noTwo_append_left (hb ▸ h1)

/-! ### Claim C5: idempotence of normalization -/

/-- C5 counterexample: removing a non-printable character that stands between
two whitespace runs merges them into a double space, which only a second pass
collapses, so `clean_text` is not idempotent. -/
theorem clean_text_not_idempotent :
    clean_text (clean_text ['a', ' ', '\x00', ' ', 'b']) ≠
      clean_text ['a', ' ', '\x00', ' ', 'b'] := by decide

/-- C5 (amended): `clean_text` is idempotent on inputs whose characters are
all printable (then the non-printable-removal step is the identity and
cannot merge whitespace runs). -/
theorem clean_text_idem_of_printable (t : List Char)
    (ht : ∀ c ∈ t, pyIsPrintable c = true) :
    clean_text (clean_text t) = clean_text t := by
  have hu_print : ∀ c ∈ collapseAux false t, pyIsPrintable c = true := by
    intro c hc
    rcases mem_collapse t false c hc with rfl | ⟨h1, _⟩
    · exact pyIsPrintable_sp
    · exact ht c h1
  have hfil : (collapseAux false t).filter pyIsPrintable = collapseAux false t :=
    List.filter_eq_self.2 (by simpa using hu_print)
  have hct : clean_text t = pyStrip (collapseAux false t) := by
    rw [clean_text, hfil]
  set r := pyStrip (collapseAux false t) with hr
  have hr_mem : ∀ c ∈ r, c ∈ collapseAux false t := fun c hc => mem_pyStrip hc
  have hr_print : ∀ c ∈ r, pyIsPrintable c = true := fun c hc => hu_print c (hr_mem c hc)
  have hr_noTwo : noTwoB r = true := noTwo_pyStrip (noTwo_collapse t false)
  have hr_sp : ∀ c ∈ r, pyIsSpace c = true → c = spChar := by
    intro c hc hsp
    rcases mem_collapse t false c (hr_mem c hc) with rfl | ⟨_, h2⟩
    · rfl
    · rw [hsp] at h2; cases h2
  have hcoll : collapseAux false r = r := (collapse_eq_self r hr_noTwo hr_sp).1
  have hfil2 : r.filter pyIsPrintable = r := List.filter_eq_self.2 (by simpa using hr_print)
  rw [hct, clean_text, hcoll, hfil2, hr, pyStrip_idem]

/-- Witness for the amended C5 at a concrete all-printable input. -/
theorem clean_text_idem_witness :
    (∀ c ∈ s2l "a  b", pyIsPrintable c = true) ∧
      clean_text (clean_text (s2l "a  b")) = clean_text (s2l "a  b") :=
  ⟨by decide, clean_text_idem_of_printable _ (by decide)⟩

/-! ### Claim C6: validator boundary -/

theorem pyStrip_eq_self_of_nonspace {l : List Char}
    (h : ∀ c ∈ l, pyIsSpace c = false) : pyStrip l = l := by
  apply pyStrip_eq_self
  · cases l with
    | nil => rfl
    | cons c cs => simp [headOkB, h c (List.mem_cons_self _ _)]
  · cases hl : l.getLast? with
    | none => simp [lastOkB, hl]
    | some c =>
      have hc : c ∈ l := List.mem_of_mem_getLast? (by simp [hl])
      simp [lastOkB, hl, h c hc]

/-- C6: `validate_chunk` accepts exactly the chunks whose trimmed length
meets `min_length`; with the default threshold 10, a 9-character chunk of
non-whitespace characters is rejected and a 10-character one accepted. -/
theorem validate_chunk_boundary :
    (∀ (chunk : List Char) (min_length : Nat),
        validate_chunk chunk min_length = true ↔
          min_length ≤ (pyStrip chunk).length) ∧
    ∀ chunk : List Char, (∀ c ∈ chunk, pyIsSpace c = false) →
      (chunk.length = 9 → validate_chunk chunk 10 = false) ∧
      (chunk.length = 10 → validate_chunk chunk 10 = true) := by
  constructor
  · intro chunk min_length
    simp [validate_chunk]
  · intro chunk h
    rw [validate_chunk, pyStrip_eq_self_of_nonspace h]
    constructor
    · intro h9; rw [h9]; decide
    · intro h10; rw [h10]; decide

/-- Witness for C6 at the spec's boundary examples. -/
theorem validate_chunk_witness :
    validate_chunk (s2l "123456789") 10 = false ∧
      validate_chunk (s2l "1234567890") 10 = true :=
  ⟨(validate_chunk_boundary.2 _ (by decide)).1 (by decide),
   (validate_chunk_boundary.2 _ (by decide)).2 (by decide)⟩

/-! ### Sentence-splitter structure -/

theorem sentEndChar_not_space {c : Char} (h : sentEndChar c = true) :
    pyIsSpace c = false := by
  simp only [sentEndChar, Bool.or_eq_true, decide_eq_true_eq] at h
  rcases h with (rfl | rfl) | rfl <;> decide

theorem ssAux_ne_nil : ∀ (rest cur : List Char) (skip : Bool),
    ssAux cur skip rest ≠ [] := by
  intro rest
  induction rest with
  | nil => intro cur skip; simp [ssAux]
  | cons c cs ih =>
    intro cur skip
    cases skip with
    | true =>
      by_cases h : pyIsSpace c = true <;> simp [ssAux, h] <;> apply ih
    | false =>
      by_cases h : (pyIsSpace c && sentEnd cur) = true <;> simp [ssAux, h]
      apply ih

/-- Pushing a run of one non-whitespace character through the splitter just
accumulates it onto the current segment. -/
theorem ssAux_run {a : Char} (ha : pyIsSpace a = false) :
    ∀ (n : Nat) (cur rest : List Char),
      ssAux cur false (List.replicate n a ++ rest) =
        ssAux (List.replicate n a ++ cur) false rest := by
  intro n
  induction n with
  | zero => intro cur rest; simp
  | succ m ih =>
    intro cur rest
    rw [List.replicate_succ, List.cons_append]
    have hstep : ssAux cur false (a :: (List.replicate m a ++ rest)) =
        ssAux (a :: cur) false (List.replicate m a ++ rest) := by
      simp [ssAux, ha]
    rw [hstep, ih (a :: cur) rest]
    have hconcat : List.replicate m a ++ a :: cur = a :: List.replicate m a ++ cur := by
      rw [← List.singleton_append (l := cur), ← List.append_assoc, ← List.replicate_succ']
      simp [List.replicate_succ]
    rw [hconcat]

/-- Every segment the splitter emits except the last contains a
sentence-final punctuation character. -/
theorem ssAux_dropLast_punct : ∀ (rest cur : List Char) (skip : Bool),
    ∀ s ∈ (ssAux cur skip rest).dropLast, ∃ c ∈ s, sentEndChar c = true := by
  intro rest
  induction rest with
  | nil => intro cur skip s hs; simp [ssAux] at hs
  | cons c cs ih =>
    intro cur skip s hs
    cases skip with
    | true =>
      by_cases h : pyIsSpace c = true
      · exact ih cur true s (by simpa [ssAux, h] using hs)
      · exact ih [c] false s (by simpa [ssAux, h] using hs)
    | false =>
      by_cases h : (pyIsSpace c && sentEnd cur) = true
      · have hout : ssAux cur false (c :: cs) = cur.reverse :: ssAux [] true cs := by
          simp [ssAux, h]
        rw [hout, List.dropLast_cons_of_ne_nil (ssAux_ne_nil cs [] true)] at hs
        rcases List.mem_cons.1 hs with rfl | hs
        · have hcur : sentEnd cur = true := by
            simp only [Bool.and_eq_true] at h
            exact h.2
          cases cur with
          | nil => cases hcur
          | cons p ps =>
            exact ⟨p, by simp, by simpa [sentEnd] using hcur⟩
        · exact ih [] true s hs
      · exact ih (c :: cur) false s (by simpa [ssAux, h] using hs)

/-- On whitespace-normalized input every segment the splitter emits is a
well-formed sentence: non-empty, non-blank at both ends, no two adjacent
whitespace characters. -/
theorem ssAux_nice : ∀ (rest cur : List Char) (skip : Bool),
    (skip = false →
      cur.reverse ++ rest ≠ [] ∧ headOkB (cur.reverse ++ rest) = true ∧
        lastOkB (cur.reverse ++ rest) = true ∧ noTwoB (cur.reverse ++ rest) = true) →
    (skip = true →
      cur = [] ∧ rest ≠ [] ∧ headOkB rest = true ∧
        lastOkB rest = true ∧ noTwoB rest = true) →
    ∀ s ∈ ssAux cur skip rest, NiceSent s := by
  intro rest
  induction rest with
  | nil =>
    intro cur skip h1 h2 s hs
    cases skip with
    | true => exact absurd rfl (h2 rfl).2.1
    | false =>
      obtain ⟨hne, hh, hl, hnt⟩ := h1 rfl
      simp only [List.append_nil] at hne hh hl hnt
      have : s = cur.reverse := by simpa [ssAux] using hs
      exact this ▸ ⟨hne, hh, hl, hnt⟩
  | cons c cs ih =>
    intro cur skip h1 h2 s hs
    cases skip with
    | true =>
      obtain ⟨hcur, _, hh, hl, hnt⟩ := h2 rfl
      subst hcur
      have hc : pyIsSpace c = false := by
        simpa [headOkB] using hh
      have hs' : s ∈ ssAux [c] false cs := by simpa [ssAux, hc] using hs
      refine ih [c] false (fun _ => ?_) (by simp) s hs'
      have hr : ([c].reverse ++ cs) = c :: cs := by simp
      rw [hr]
      exact ⟨by simp, hh, hl, hnt⟩
    | false =>
      obtain ⟨hne, hh, hl, hnt⟩ := h1 rfl
      by_cases hsplit : (pyIsSpace c && sentEnd cur) = true
      · have hc : pyIsSpace c = true := by
          simp only [Bool.and_eq_true] at hsplit; exact hsplit.1
        have hse : sentEnd cur = true := by
          simp only [Bool.and_eq_true] at hsplit; exact hsplit.2
        obtain ⟨p, ps, hp⟩ : ∃ p ps, cur = p :: ps := by
          cases cur with
          | nil => cases hse
          | cons p ps => exact ⟨p, ps, rfl⟩
        have hpend : sentEndChar p = true := by
          rw [hp] at hse; simpa [sentEnd] using hse
        have hcurne : cur.reverse ≠ [] := by simp [hp]
        have hout : s ∈ cur.reverse :: ssAux [] true cs := by
          simpa [ssAux, hsplit] using hs
        rcases List.mem_cons.1 hout with rfl | hrest
        · refine ⟨hcurne, headOk_append_left hh hcurne, ?_, noTwo_append_left hnt⟩
          simp [lastOkB, List.getLast?_reverse, hp,
            sentEndChar_not_space hpend]
        · have hcsne : cs ≠ [] := by
            intro hcs
            subst hcs
            have : lastOkB (cur.reverse ++ [c]) = true := hl
            simp [lastOkB, hc] at this
          obtain ⟨e, es, hcs⟩ : ∃ e es, cs = e :: es := by
            cases cs with
            | nil => exact absurd rfl hcsne
            | cons e es => exact ⟨e, es, rfl⟩
          have hnt1 : noTwoB (c :: cs) = true := noTwo_append_right hnt
          have hhead : headOkB cs = true := by
            have := (noTwo_cons.1 hnt1).1
            rw [hcs] at this ⊢
            have he := this e (by simp)
            simp only [headOkB, List.head?_cons, Option.all_some]
            by_contra hcon
            exact he ⟨hc, by simpa using hcon⟩
          have hlast : lastOkB cs = true := by
            rw [hcs]
            have : (cur.reverse ++ c :: cs).getLast? = (e :: es).getLast? := by
              rw [hcs]
              simp [List.getLast?_append, List.getLast?_cons_cons]
              cases hh2 : (e :: es).getLast? with
              | none => simp at hh2
              | some x => simp
            rw [lastOkB, ← this]
            exact hl
          exact ih [] true (by simp) (fun _ => ⟨rfl, hcsne, hhead, hlast,
            (noTwo_cons.1 hnt1).2⟩) s hrest
      · have hcomb : (c :: cur).reverse ++ cs = cur.reverse ++ c :: cs := by simp
        have hs' : s ∈ ssAux (c :: cur) false cs := by
          simpa [ssAux, hsplit] using hs
        exact ih (c :: cur) false
          (fun _ => by rw [hcomb]; exact ⟨hne, hh, hl, hnt⟩) (by simp) s hs'

/-- Sentences of whitespace-normalized non-empty text are well formed. -/
theorem splitSentences_nice {t : List Char} (ht : TextClean t) :
    ∀ s ∈ splitSentences t, NiceSent s := by
  obtain ⟨hne, hh, hl, hnt⟩ := ht
  exact ssAux_nice t [] false (fun _ => by simpa using ⟨hne, hh, hl, hnt⟩) (by simp)

/-! ### Step equations for the splitter and the chunker -/

theorem ssAux_cons_nonspace {c : Char} (h : pyIsSpace c = false)
    (cur cs : List Char) : ssAux cur false (c :: cs) = ssAux (c :: cur) false cs := by
  simp [ssAux, h]

theorem ssAux_split {c : Char} {cur : List Char} (hc : pyIsSpace c = true)
    (hse : sentEnd cur = true) (cs : List Char) :
    ssAux cur false (c :: cs) = cur.reverse :: ssAux [] true cs := by
  simp [ssAux, hc, hse]

theorem ssAux_skip_exit {c : Char} (h : pyIsSpace c = false) (cur cs : List Char) :
    ssAux cur true (c :: cs) = ssAux [c] false cs := by
  simp [ssAux, h]

theorem chunkGo_nil (mc oc : Nat) (cur : List Char) (acc : List (List Char)) :
    chunkGo mc oc [] cur acc =
      if pyStrip cur = [] then acc else acc ++ [pyStrip cur] := rfl

theorem chunkGo_nil_emit {cur : List Char} (h : pyStrip cur ≠ [])
    (mc oc : Nat) (acc : List (List Char)) :
    chunkGo mc oc [] cur acc = acc ++ [pyStrip cur] := by
  rw [chunkGo_nil, if_neg h]

theorem chunkGo_cons_overflow {mc : Nat} {cur s : List Char}
    (hg : mc < cur.length + s.length) (hne : cur ≠ []) (oc : Nat)
    (ss : List (List Char)) (acc : List (List Char)) :
    chunkGo mc oc (s :: ss) cur acc =
      chunkGo mc oc ss
        (if 0 < oc ∧ oc < cur.length then takeRight oc cur ++ spChar :: s else s)
        (acc ++ [pyStrip cur]) := by
  rw [chunkGo, if_pos ⟨hg, hne⟩]

theorem chunkGo_cons_fits {mc : Nat} {cur s : List Char}
    (hg : ¬(mc < cur.length + s.length ∧ cur ≠ [])) (oc : Nat)
    (ss : List (List Char)) (acc : List (List Char)) :
    chunkGo mc oc (s :: ss) cur acc =
      chunkGo mc oc ss (if cur = [] then s else cur ++ spChar :: s) acc := by
  rw [chunkGo, if_neg hg]

/-! ### Claim C2: the chunk size bound -/

theorem takeRight_length (n : Nat) (l : List Char) :
    (takeRight n l).length = min n l.length := by
  simp [takeRight]
  omega

/-- Every chunk the accumulation loop emits is at most one joining space
longer than the sentence budget plus the overlap budget. -/
theorem chunkGo_length (mc oc : Nat) :
    ∀ (ss : List (List Char)) (cur : List Char) (acc : List (List Char)),
      (∀ s ∈ ss, s.length ≤ mc) → cur.length ≤ mc + oc + 1 →
      (∀ c ∈ acc, c.length ≤ mc + oc + 1) →
      ∀ c ∈ chunkGo mc oc ss cur acc, c.length ≤ mc + oc + 1 := by
  intro ss
  induction ss with
  | nil =>
    intro cur acc _ hcur hacc c hc
    rw [chunkGo_nil] at hc
    by_cases h : pyStrip cur = []
    · exact hacc c (by simpa [h] using hc)
    · rw [if_neg h] at hc
      rcases List.mem_append.1 hc with hc | hc
      · exact hacc c hc
      · have : c = pyStrip cur := by simpa using hc
        subst this
        exact le_trans (pyStrip_length_le cur) hcur
  | cons s ss ih =>
    intro cur acc hss hcur hacc c hc
    have hs : s.length ≤ mc := hss s (List.mem_cons_self _ _)
    have hss' : ∀ u ∈ ss, u.length ≤ mc := fun u hu => hss u (List.mem_cons_of_mem _ hu)
    by_cases hg : mc < cur.length + s.length ∧ cur ≠ []
    · rw [chunkGo_cons_overflow hg.1 hg.2] at hc
      refine ih _ _ hss' ?_ ?_ c hc
      · by_cases hov : 0 < oc ∧ oc < cur.length
        · rw [if_pos hov]
          have : (takeRight oc cur).length = oc := by
            rw [takeRight_length]; omega
          simp only [List.length_append, List.length_cons, this]
          omega
        · rw [if_neg hov]; omega
      · intro d hd
        rcases List.mem_append.1 hd with hd | hd
        · exact hacc d hd
        · have : d = pyStrip cur := by simpa using hd
          subst this
          exact le_trans (pyStrip_length_le cur) hcur
    · rw [chunkGo_cons_fits hg] at hc
      refine ih _ _ hss' ?_ hacc c hc
      by_cases hcn : cur = []
      · rw [if_pos hcn]; omega
      · rw [if_neg hcn]
        have hle : cur.length + s.length ≤ mc := by
          rcases not_and_or.1 hg with h | h
          · omega
          · exact absurd hcn (by simpa using h)
        simp only [List.length_append, List.length_cons]
        omega

/-- C2 (amended): with `max_tokens = 800` (3200-character budget) and no
sentence longer than 3200 characters, every chunk is at most
`3200 + overlap*4 + 1` characters long — the bound of the claim plus the one
joining space the accumulation inserts before counting. -/
theorem chunk_text_size_bound (text : List Char) (overlap : Nat)
    (h : ∀ s ∈ splitSentences text, s.length ≤ 3200) :
    ∀ c ∈ chunk_text text 800 overlap, c.length ≤ 3200 + overlap * 4 + 1 := by
  have h800 : (800 : Nat) * 4 = 3200 := by norm_num
  intro c hc
  rw [chunk_text, h800] at hc
  exact chunkGo_length 3200 (overlap * 4) (splitSentences text) [] [] h
    (by simp) (by simp) c hc

/-- Witness for the amended C2 at a concrete two-sentence input. -/
theorem chunk_text_size_bound_witness :
    (∀ s ∈ splitSentences (s2l "Hi there. Ok."), s.length ≤ 3200) ∧
      ∀ c ∈ chunk_text (s2l "Hi there. Ok.") 800 100,
        c.length ≤ 3200 + 100 * 4 + 1 :=
  ⟨by decide, chunk_text_size_bound _ 100 (by decide)⟩

theorem headOk_cons (c : Char) (l : List Char) :
    headOkB (c :: l) = !pyIsSpace c := by simp [headOkB]

theorem lastOk_concat (l : List Char) (c : Char) :
    lastOkB (l ++ [c]) = !pyIsSpace c := by
  simp [lastOkB, List.getLast?_concat]

theorem sentA_expose : sentA = 'a' :: (List.replicate 1598 'a' ++ ['.']) := by
  rw [sentA, show (1599 : Nat) = 1598 + 1 from rfl, List.replicate_succ, List.cons_append]

theorem sentB_expose : sentB = 'b' :: (List.replicate 1598 'b' ++ ['.']) := by
  rw [sentB, show (1599 : Nat) = 1598 + 1 from rfl, List.replicate_succ, List.cons_append]

theorem cex2_sentences : splitSentences cex2text = [sentA, sentB, ['c', '.']] := by
  have ha : pyIsSpace 'a' = false := by decide
  have hb : pyIsSpace 'b' = false := by decide
  have hdot : pyIsSpace '.' = false := by decide
  have hspc : pyIsSpace ' ' = true := by decide
  simp only [splitSentences, cex2text]
  rw [ssAux_run ha 1599 [], List.append_nil, ssAux_cons_nonspace hdot,
    ssAux_split hspc (by decide), List.reverse_cons, List.reverse_replicate]
  rw [show List.replicate 1599 'b' = 'b' :: List.replicate 1598 'b' from
    by rw [show (1599 : Nat) = 1598 + 1 from rfl, List.replicate_succ]]
  rw [List.cons_append, ssAux_skip_exit hb, ssAux_run hb 1598,
    ← List.replicate_succ' 1598 'b', ssAux_cons_nonspace hdot,
    ssAux_split hspc (by decide), List.reverse_cons, List.reverse_replicate]
  rw [show ssAux [] true ['c', '.'] = [['c', '.']] from by decide]
  rw [sentA, sentB]

theorem sentA_length : sentA.length = 1600 := by
  rw [sentA, List.length_append, List.length_replicate, List.length_singleton]

theorem sentB_length : sentB.length = 1600 := by
  rw [sentB, List.length_append, List.length_replicate, List.length_singleton]

theorem cex2_chunks :
    chunk_text cex2text 800 0 = [sentA ++ spChar :: sentB, ['c', '.']] := by
  rw [chunk_text, cex2_sentences, show (800 : Nat) * 4 = 3200 from rfl,
    show (0 : Nat) * 4 = 0 from rfl]
  rw [chunkGo_cons_fits (by simp), if_pos rfl]
  rw [chunkGo_cons_fits (by rw [sentA_length, sentB_length]; simp),
    if_neg (by rw [sentA_expose]; exact List.cons_ne_nil _ _)]
  rw [chunkGo_cons_overflow
    (by simp only [List.length_append, List.length_cons, sentA_length, sentB_length]; omega)
    (by rw [sentA_expose]; exact List.cons_ne_nil _ _)]
  rw [if_neg (by simp)]
  have hstrip : pyStrip (sentA ++ spChar :: sentB) = sentA ++ spChar :: sentB := by
    apply pyStrip_eq_self
    · rw [sentA_expose, List.cons_append, headOk_cons]
      decide
    · rw [show sentA ++ spChar :: sentB = (sentA ++ spChar :: List.replicate 1599 'b') ++ ['.'] from
        by rw [sentB]; simp]
      rw [lastOk_concat]
      decide
  rw [chunkGo_nil, if_neg (by decide), hstrip]
  rw [show pyStrip ['c', '.'] = ['c', '.'] from by decide]
  rfl

/-- C2 counterexample: with `overlap = 0` and sentences of 1600, 1600 and 2
characters, the loop appends the second sentence (1600 + 1600 = 3200 does not
exceed the budget) with a joining space, producing a 3201-character chunk —
one more than the claimed `3200 + overlap*4` bound. -/
theorem chunk_text_size_bound_cex :
    (∀ s ∈ splitSentences cex2text, s.length ≤ 3200) ∧
      ¬(∀ c ∈ chunk_text cex2text 800 0, c.length ≤ 3200 + 0 * 4) := by
  constructor
  · rw [cex2_sentences]
    intro s hs
    rcases List.mem_cons.1 hs with rfl | hs
    · rw [sentA_length]; omega
    · rcases List.mem_cons.1 hs with rfl | hs
      · rw [sentB_length]; omega
      · rcases List.mem_cons.1 hs with rfl | hs
        · simp
        · simp at hs
  · intro hall
    have hmem : (sentA ++ spChar :: sentB) ∈ chunk_text cex2text 800 0 := by
      rw [cex2_chunks]; simp
    have hlen := hall _ hmem
    simp only [List.length_append, List.length_cons, sentA_length, sentB_length] at hlen
    omega

/-! ### Claim C1: metadata assembly -/

theorem assembleGo_total (fn : List Char) (total : Nat) :
    ∀ (cs : List (List Char)) (i : Nat) (r : ChunkRecord),
      r ∈ assembleGo fn total i cs → r.total_chunks = total := by
  intro cs
  induction cs with
  | nil => intro i r hr; simp [assembleGo] at hr
  | cons c cs ih =>
    intro i r hr
    by_cases h : validate_chunk c 10 = true
    · rw [assembleGo, if_pos h] at hr
      rcases List.mem_cons.1 hr with rfl | hr
      · rfl
      · exact ih (i + 1) r hr
    · rw [assembleGo, if_neg h] at hr
      exact ih (i + 1) r hr

theorem assembleGo_index_lb (fn : List Char) (total : Nat) :
    ∀ (cs : List (List Char)) (i : Nat) (r : ChunkRecord),
      r ∈ assembleGo fn total i cs → i ≤ r.chunk_index := by
  intro cs
  induction cs with
  | nil => intro i r hr; simp [assembleGo] at hr
  | cons c cs ih =>
    intro i r hr
    by_cases h : validate_chunk c 10 = true
    · rw [assembleGo, if_pos h] at hr
      rcases List.mem_cons.1 hr with rfl | hr
      · rfl
      · exact le_trans (Nat.le_succ i) (ih (i + 1) r hr)
    · rw [assembleGo, if_neg h] at hr
      exact le_trans (Nat.le_succ i) (ih (i + 1) r hr)

theorem assembleGo_chain (fn : List Char) (total : Nat) :
    ∀ (cs : List (List Char)) (i : Nat),
      List.Chain' (· < ·) ((assembleGo fn total i cs).map fun r => r.chunk_index) := by
  intro cs
  induction cs with
  | nil => intro i; simp [assembleGo]
  | cons c cs ih =>
    intro i
    by_cases h : validate_chunk c 10 = true
    · rw [assembleGo, if_pos h]
      rw [List.map_cons, List.chain'_cons']
      refine ⟨?_, ih (i + 1)⟩
      intro y hy
      rw [List.head?_map] at hy
      rcases Option.map_eq_some'.1 hy with ⟨r, hr, rfl⟩
      have hrmem : r ∈ assembleGo fn total (i + 1) cs := List.mem_of_mem_head? hr
      have := assembleGo_index_lb fn total cs (i + 1) r hrmem
      show i < r.chunk_index
      omega
    · rw [assembleGo, if_neg h]
      exact ih (i + 1)

theorem assembleGo_all_valid (fn : List Char) (total : Nat) :
    ∀ (cs : List (List Char)) (i : Nat),
      (∀ c ∈ cs, validate_chunk c 10 = true) →
      ((assembleGo fn total i cs).map fun r => r.chunk_index) =
          List.range' i cs.length ∧
        (assembleGo fn total i cs).length = cs.length := by
  intro cs
  induction cs with
  | nil => intro i _; simp [assembleGo]
  | cons c cs ih =>
    intro i hv
    have hc : validate_chunk c 10 = true := hv c (List.mem_cons_self _ _)
    have hcs : ∀ d ∈ cs, validate_chunk d 10 = true :=
      fun d hd => hv d (List.mem_cons_of_mem _ hd)
    obtain ⟨h1, h2⟩ := ih (i + 1) hcs
    rw [assembleGo, if_pos hc]
    constructor
    · rw [List.map_cons, h1, List.length_cons, List.range'_succ]
    · simp [h2]

/-- C1 (amended): in the assembled records, `total_chunks` is the count of
all chunks produced by the chunker (valid or not), `chunk_index` is the
record's position among all chunks — so indices are strictly increasing but
need not be contiguous and `total_chunks` can exceed the record count; when
every chunk passes validation the indices are exactly `0..N-1` and
`total_chunks = N` equals the record count. -/
theorem assemble_metadata (fn : List Char) (chunks : List (List Char)) :
    (∀ r ∈ assembleChunks fn chunks, r.total_chunks = chunks.length) ∧
      List.Chain' (· < ·) ((assembleChunks fn chunks).map fun r => r.chunk_index) ∧
      ((∀ c ∈ chunks, validate_chunk c 10 = true) →
        ((assembleChunks fn chunks).map fun r => r.chunk_index) =
            List.range chunks.length ∧
          (assembleChunks fn chunks).length = chunks.length) := by
  refine ⟨fun r hr => assembleGo_total fn chunks.length chunks 0 r hr,
    assembleGo_chain fn chunks.length chunks 0, fun hv => ?_⟩
  obtain ⟨h1, h2⟩ := assembleGo_all_valid fn chunks.length chunks 0 hv
  rw [List.range_eq_range']
  exact ⟨h1, h2⟩

/-- Witness for the amended C1 on an all-valid chunk list. -/
theorem assemble_metadata_witness :
    ((assembleChunks (s2l "f") [s2l "chunk one!", s2l "chunk two!"]).map
        fun r => r.chunk_index) = List.range 2 ∧
      (assembleChunks (s2l "f") [s2l "chunk one!", s2l "chunk two!"]).length = 2 :=
  (assemble_metadata (s2l "f") [s2l "chunk one!", s2l "chunk two!"]).2.2 (by decide)

theorem noTwo_cons_of {c : Char} (h : pyIsSpace c = false) {l : List Char}
    (hl : noTwoB l = true) : noTwoB (c :: l) = true :=
  noTwo_cons.2 ⟨fun _ _ hc => absurd hc.1 (by simp [h]), hl⟩

theorem noTwo_append_of {l1 l2 : List Char} (h1 : noTwoB l1 = true)
    (h2 : noTwoB l2 = true)
    (hj : ∀ c ∈ l1.getLast?, ∀ d ∈ l2.head?,
      ¬(pyIsSpace c = true ∧ pyIsSpace d = true)) :
    noTwoB (l1 ++ l2) = true := by
  induction l1 with
  | nil => simpa using h2
  | cons c cs ih =>
    rcases noTwo_cons.1 h1 with ⟨hhead, htail⟩
    rw [List.cons_append]
    refine noTwo_cons.2 ⟨?_, ?_⟩
    · intro d hd
      cases cs with
      | nil =>
        simp only [List.nil_append] at hd
        exact hj c (by simp) d hd
      | cons e es =>
        simp only [List.cons_append, List.head?_cons, Option.mem_def,
          Option.some.injEq] at hd
        exact hd ▸ hhead e (by simp)
    · refine ih htail ?_
      intro x hx d hd
      apply hj x _ d hd
      cases cs with
      | nil => simp at hx
      | cons e es =>
        simpa [List.getLast?_cons_cons] using hx

theorem noTwo_replicate_append {a : Char} (h : pyIsSpace a = false) :
    ∀ (n : Nat) (rest : List Char), noTwoB rest = true →
      noTwoB (List.replicate n a ++ rest) = true := by
  intro n
  induction n with
  | zero => intro rest hr; simpa using hr
  | succ m ih =>
    intro rest hr
    rw [List.replicate_succ, List.cons_append]
    exact noTwo_cons_of h (ih rest hr)

theorem sentL_expose : sentL = 'a' :: (List.replicate 3194 'a' ++ ['.']) := by
  rw [sentL, show (3195 : Nat) = 3194 + 1 from rfl, List.replicate_succ, List.cons_append]

theorem mem_sentL {c : Char} (hc : c ∈ sentL) : c = 'a' ∨ c = '.' := by
  rw [sentL] at hc
  rcases List.mem_append.1 hc with h | h
  · exact Or.inl (List.eq_of_mem_replicate h)
  · exact Or.inr (by simpa using h)

theorem cex1raw_shape : cex1raw = s2l "Aa bb cc. " ++ sentL := by
  rw [cex1raw, sentL, List.append_assoc]

theorem sentL_length : sentL.length = 3196 := by
  rw [sentL, List.length_append, List.length_replicate, List.length_singleton]

theorem pyStrip_sentL : pyStrip sentL = sentL := by
  apply pyStrip_eq_self
  · rw [sentL_expose, headOk_cons]; decide
  · rw [sentL, lastOk_concat]; decide

theorem cex1raw_length : cex1raw.length = 3206 := by
  rw [cex1raw, List.length_append, List.length_append, List.length_replicate,
    List.length_singleton, show (s2l "Aa bb cc. ").length = 10 from by decide]

theorem pyStrip_cex1raw : pyStrip cex1raw = cex1raw := by
  apply pyStrip_eq_self
  · rw [cex1raw_shape, show s2l "Aa bb cc. " = 'A' :: s2l "a bb cc. " from by decide,
      List.cons_append, headOk_cons]
    decide
  · rw [cex1raw, lastOk_concat]
    decide

theorem cex1raw_ne_nil : cex1raw ≠ [] := by
  rw [cex1raw_shape, show s2l "Aa bb cc. " = 'A' :: s2l "a bb cc. " from by decide,
    List.cons_append]
  exact List.cons_ne_nil _ _

theorem clean_cex1raw : clean_text cex1raw = cex1raw := by
  have hnt : noTwoB cex1raw = true := by
    rw [cex1raw_shape]
    refine noTwo_append_of (by decide) ?_ ?_
    · rw [sentL]
      exact noTwo_replicate_append (by decide) 3195 ['.'] (by decide)
    · intro c hc d hd
      rw [show (s2l "Aa bb cc. ").getLast? = some ' ' from by decide] at hc
      rw [sentL_expose, List.head?_cons] at hd
      simp only [Option.mem_def, Option.some.injEq] at hc hd
      subst hc; subst hd
      decide
  have hsp : ∀ c ∈ cex1raw, pyIsSpace c = true → c = spChar := by
    intro c hc hspace
    rw [cex1raw_shape] at hc
    rcases List.mem_append.1 hc with h | h
    · revert hspace
      have : ∀ d ∈ s2l "Aa bb cc. ", pyIsSpace d = true → d = spChar := by decide
      exact this c h
    · rcases mem_sentL h with rfl | rfl <;> exact absurd hspace (by decide)
  have hcoll : collapseAux false cex1raw = cex1raw := (collapse_eq_self _ hnt hsp).1
  have hpr : ∀ c ∈ cex1raw, pyIsPrintable c = true := by
    intro c hc
    rw [cex1raw_shape] at hc
    rcases List.mem_append.1 hc with h | h
    · revert h
      have : ∀ d ∈ s2l "Aa bb cc. ", pyIsPrintable d = true := by decide
      exact fun h => this c h
    · rcases mem_sentL h with rfl | rfl <;> decide
  have hfil : cex1raw.filter pyIsPrintable = cex1raw :=
    List.filter_eq_self.2 (by simpa using hpr)
  rw [clean_text, hcoll, hfil, pyStrip_cex1raw]

theorem ssAux_cons_nosplit {c : Char} {cur : List Char}
    (h : (pyIsSpace c && sentEnd cur) = false) (cs : List Char) :
    ssAux cur false (c :: cs) = ssAux (c :: cur) false cs := by
  simp [ssAux, h]

theorem ssAux_nil (cur : List Char) (skip : Bool) :
    ssAux cur skip [] = [cur.reverse] := by
  cases skip <;> rfl

theorem cex1_sentences : splitSentences cex1raw = [s2l "Aa bb cc.", sentL] := by
  have ha : pyIsSpace 'a' = false := by decide
  have hdot : pyIsSpace '.' = false := by decide
  have hspc : pyIsSpace ' ' = true := by decide
  have hshape : cex1raw =
      'A' :: 'a' :: ' ' :: 'b' :: 'b' :: ' ' :: 'c' :: 'c' :: '.' :: ' ' :: sentL := by
    rw [cex1raw_shape]; rfl
  rw [splitSentences, hshape]
  rw [ssAux_cons_nosplit (by decide), ssAux_cons_nosplit (by decide),
    ssAux_cons_nosplit (by decide), ssAux_cons_nosplit (by decide),
    ssAux_cons_nosplit (by decide), ssAux_cons_nosplit (by decide),
    ssAux_cons_nosplit (by decide), ssAux_cons_nosplit (by decide),
    ssAux_cons_nosplit (by decide)]
  rw [ssAux_split hspc (by decide)]
  rw [show (['.', 'c', 'c', ' ', 'b', 'b', ' ', 'a', 'A'] : List Char).reverse =
    s2l "Aa bb cc." from by decide]
  rw [show ssAux [] true sentL = ssAux ['a'] false (List.replicate 3194 'a' ++ ['.'])
    from by rw [sentL_expose, ssAux_skip_exit ha]]
  rw [ssAux_run ha 3194, ← List.replicate_succ' 3194 'a', ssAux_cons_nonspace hdot,
    ssAux_nil, List.reverse_cons, List.reverse_replicate]
  rw [sentL]

theorem cex1_chunks :
    chunk_text cex1raw CHUNK_SIZE CHUNK_OVERLAP = [s2l "Aa bb cc.", sentL] := by
  rw [chunk_text, cex1_sentences, CHUNK_SIZE, CHUNK_OVERLAP,
    show (800 : Nat) * 4 = 3200 from rfl, show (100 : Nat) * 4 = 400 from rfl]
  rw [chunkGo_cons_fits (by simp), if_pos rfl]
  rw [chunkGo_cons_overflow (by rw [sentL_length]; decide) (by decide)]
  rw [if_neg (by decide)]
  rw [show pyStrip (s2l "Aa bb cc.") = s2l "Aa bb cc." from by decide]
  rw [chunkGo_nil_emit (by rw [pyStrip_sentL, sentL_expose]; exact List.cons_ne_nil _ _),
    pyStrip_sentL]
  rfl

theorem sentL_ne_nil : sentL ≠ [] := by
  rw [sentL_expose]; exact List.cons_ne_nil _ _

theorem cex1_records :
    process_pdf (s2l "f") cex1raw [] =
      [⟨sentL, s2l "f", 1, 2, s2l "pdf"⟩] := by
  have hocr : ocrTriggered cex1raw = false := by
    rw [ocrTriggered, pyStrip_cex1raw, cex1raw_length,
      decide_eq_false cex1raw_ne_nil]
    decide
  rw [process_pdf]
  simp only [hocr, Bool.false_eq_true, if_false]
  rw [if_neg cex1raw_ne_nil, clean_cex1raw, cex1_chunks]
  rw [assembleChunks, show ([s2l "Aa bb cc.", sentL] : List (List Char)).length = 2
    from rfl]
  rw [assembleGo, if_neg (by decide)]
  have hval : validate_chunk sentL 10 = true := by
    rw [validate_chunk, pyStrip_sentL, sentL_length]
    decide
  rw [assembleGo, if_pos hval]
  rfl

/-- C1 counterexample: with a 9-character first sentence (an invalid chunk)
followed by a 3196-character one, `process_pdf` emits a single record whose
`chunk_index` is 1 (not 0) and whose `total_chunks` is 2 (not 1): the indices
are positions among all chunks, including the invalid ones dropped by
validation. -/
theorem process_pdf_contiguity_cex :
    ¬ ContiguousRecords (process_pdf (s2l "f") cex1raw []) := by
  rw [cex1_records]
  rintro ⟨h1, -⟩
  exact absurd h1 (by decide)

/-! ### Claim C8: the OCR fallback -/

/-- C8: OCR is attempted exactly when the trimmed extraction is shorter than
50 characters; the OCR text replaces the document only when, trimmed, it is
longer than 20 characters, and otherwise `process_pdf` returns no chunks;
when extraction is long enough the raw text is processed directly. -/
theorem process_pdf_ocr (fn raw ocr : List Char) :
    (ocrTriggered raw = true ↔ (pyStrip raw).length < 50) ∧
      ((pyStrip raw).length < 50 →
        ((pyStrip ocr).length ≤ 20 → process_pdf fn raw ocr = []) ∧
        (20 < (pyStrip ocr).length →
          process_pdf fn raw ocr =
            assembleChunks fn (chunk_text (clean_text ocr) CHUNK_SIZE CHUNK_OVERLAP))) ∧
      (50 ≤ (pyStrip raw).length →
        process_pdf fn raw ocr =
          assembleChunks fn (chunk_text (clean_text raw) CHUNK_SIZE CHUNK_OVERLAP)) := by
  have htrig : ocrTriggered raw = true ↔ (pyStrip raw).length < 50 := by
    rw [ocrTriggered]
    simp only [Bool.or_eq_true, decide_eq_true_eq]
    constructor
    · rintro (rfl | h)
      · simp [pyStrip, dropSp, rdropSp]
      · exact h
    · exact Or.inr
  refine ⟨htrig, fun hlt => ?_, fun hge => ?_⟩
  · have hocr : ocrTriggered raw = true := htrig.2 hlt
    constructor
    · intro hle
      have hcond : ¬(ocr ≠ [] ∧ 20 < (pyStrip ocr).length) := by
        rintro ⟨-, h⟩; omega
      rw [process_pdf]
      simp only [hocr, if_true, if_neg hcond]
    · intro hgt
      have hne : ocr ≠ [] := by
        rintro rfl
        simp [pyStrip, dropSp, rdropSp] at hgt
      rw [process_pdf]
      simp only [hocr, if_true, if_pos (And.intro hne hgt), if_neg hne]
  · have hocr : ocrTriggered raw = false := by
      rw [← Bool.not_eq_true, htrig]; omega
    have hne : raw ≠ [] := by
      rintro rfl
      simp [pyStrip, dropSp, rdropSp] at hge
    rw [process_pdf]
    simp only [hocr, Bool.false_eq_true, if_false, if_neg hne]

/-- Witness for C8: a near-empty extraction with a short OCR yields nothing;
with a long OCR the OCR text is processed. -/
theorem process_pdf_ocr_witness :
    (pyStrip (s2l "x")).length < 50 ∧
      process_pdf (s2l "f") (s2l "x") (s2l "short") = [] ∧
      process_pdf (s2l "f") (s2l "x") (s2l "abcdefghijklmnopqrstu.") =
        assembleChunks (s2l "f")
          (chunk_text (clean_text (s2l "abcdefghijklmnopqrstu."))
            CHUNK_SIZE CHUNK_OVERLAP) :=
  ⟨by decide,
   ((process_pdf_ocr (s2l "f") (s2l "x") (s2l "short")).2.1 (by decide)).1 (by decide),
   ((process_pdf_ocr (s2l "f") (s2l "x") (s2l "abcdefghijklmnopqrstu.")).2.1
      (by decide)).2 (by decide)⟩

/-! ### Claim C10: chunks are trimmed and non-empty -/

theorem chunkGo_chunks_stripped (mc oc : Nat) :
    ∀ (ss : List (List Char)) (cur : List Char) (acc : List (List Char)),
      (∀ s ∈ ss.dropLast, ∃ c ∈ s, pyIsSpace c = false) →
      (cur = [] ∨ (∃ c ∈ cur, pyIsSpace c = false) ∨ ss = []) →
      (∀ c ∈ acc, c ≠ [] ∧ pyStrip c = c) →
      ∀ c ∈ chunkGo mc oc ss cur acc, c ≠ [] ∧ pyStrip c = c := by
  intro ss
  induction ss with
  | nil =>
    intro cur acc _ _ hacc c hc
    rw [chunkGo_nil] at hc
    by_cases h : pyStrip cur = []
    · exact hacc c (by simpa [h] using hc)
    · rw [if_neg h] at hc
      rcases List.mem_append.1 hc with hc | hc
      · exact hacc c hc
      · have : c = pyStrip cur := by simpa using hc
        subst this
        exact ⟨h, pyStrip_idem cur⟩
  | cons s ss ih =>
    intro cur acc hd hinv hacc c hc
    have hs_ns : ss ≠ [] → ∃ d ∈ s, pyIsSpace d = false := by
      intro hne
      apply hd
      cases ss with
      | nil => exact absurd rfl hne
      | cons e es => rw [List.dropLast_cons_of_ne_nil (by simp)]; simp
    have hd' : ∀ u ∈ ss.dropLast, ∃ d ∈ u, pyIsSpace d = false := by
      intro u hu
      apply hd
      cases ss with
      | nil => simp at hu
      | cons e es =>
        rw [List.dropLast_cons_of_ne_nil (by simp)]
        exact List.mem_cons_of_mem _ hu
    by_cases hg : mc < cur.length + s.length ∧ cur ≠ []
    · rw [chunkGo_cons_overflow hg.1 hg.2] at hc
      have hcur_ns : ∃ d ∈ cur, pyIsSpace d = false := by
        rcases hinv with rfl | h | h
        · exact absurd rfl hg.2
        · exact h
        · cases h
      refine ih _ _ hd' ?_ ?_ c hc
      · by_cases hss : ss = []
        · exact Or.inr (Or.inr hss)
        · obtain ⟨d, hdm, hdns⟩ := hs_ns hss
          refine Or.inr (Or.inl ?_)
          by_cases hov : 0 < oc ∧ oc < cur.length
          · rw [if_pos hov]
            exact ⟨d, List.mem_append.2 (Or.inr (List.mem_cons_of_mem _ hdm)), hdns⟩
          · rw [if_neg hov]
            exact ⟨d, hdm, hdns⟩
      · intro e he
        rcases List.mem_append.1 he with he | he
        · exact hacc e he
        · have : e = pyStrip cur := by simpa using he
          subst this
          obtain ⟨d, hdm, hdns⟩ := hcur_ns
          exact ⟨pyStrip_ne_nil hdm hdns, pyStrip_idem cur⟩
    · rw [chunkGo_cons_fits hg] at hc
      refine ih _ _ hd' ?_ hacc c hc
      by_cases hcn : cur = []
      · rw [if_pos hcn]
        by_cases hss : ss = []
        · exact Or.inr (Or.inr hss)
        · obtain ⟨d, hdm, hdns⟩ := hs_ns hss
          exact Or.inr (Or.inl ⟨d, hdm, hdns⟩)
      · rw [if_neg hcn]
        rcases hinv with rfl | h | h
        · exact absurd rfl hcn
        · obtain ⟨d, hdm, hdns⟩ := h
          exact Or.inr (Or.inl ⟨d, List.mem_append.2 (Or.inl hdm), hdns⟩)
        · cases h

/-- C10: every chunk `chunk_text` emits equals its own trim and is not the
empty string, for every input and both budgets. -/
theorem chunk_text_trimmed (text : List Char) (mt ov : Nat) :
    ∀ c ∈ chunk_text text mt ov, c ≠ [] ∧ pyStrip c = c := by
  apply chunkGo_chunks_stripped
  · intro s hs
    obtain ⟨d, hdm, hdp⟩ := ssAux_dropLast_punct text [] false s hs
    exact ⟨d, hdm, sentEndChar_not_space hdp⟩
  · exact Or.inl rfl
  · intro c hc; simp at hc

/-- Witness for C10 at a concrete input. -/
theorem chunk_text_trimmed_witness :
    (s2l "hi") ∈ chunk_text (s2l "hi") 800 100 ∧
      (s2l "hi") ≠ [] ∧ pyStrip (s2l "hi") = s2l "hi" :=
  ⟨by decide, chunk_text_trimmed (s2l "hi") 800 100 (s2l "hi") (by decide)⟩

/-! ### Claim C3: overlap seeding between consecutive chunks -/

theorem noTwo_drop {l : List Char} (h : noTwoB l = true) (k : Nat) :
    noTwoB (l.drop k) = true :=
  noTwo_append_right (l := l.drop k) (a := l.take k)
    (by rw [List.take_append_drop]; exact h)

theorem noTwo_takeRight {l : List Char} (h : noTwoB l = true) (n : Nat) :
    noTwoB (takeRight n l) = true :=
  noTwo_drop h _

theorem takeRight_decomp (n : Nat) (l : List Char) :
    l = l.take (l.length - n) ++ takeRight n l := by
  rw [takeRight, List.take_append_drop]

theorem takeRight_eq_self_append (a b : List Char) :
    takeRight b.length (a ++ b) = b := by
  rw [takeRight, List.length_append, Nat.add_sub_cancel, List.drop_left]

theorem takeRight_append_le {a b : List Char} {k : Nat} (h : k ≤ b.length) :
    takeRight k (a ++ b) = takeRight k b := by
  rw [takeRight, takeRight, List.length_append,
    show a.length + b.length - k = a.length + (b.length - k) by omega,
    List.drop_append]

/-- A list without two adjacent whitespace characters loses at most one
character to a left strip. -/
theorem dropSp_length_ge {l : List Char} (h : noTwoB l = true) :
    l.length ≤ (dropSp l).length + 1 := by
  cases l with
  | nil => simp [dropSp]
  | cons c cs =>
    by_cases hc : pyIsSpace c = true
    · rw [dropSp_cons_pos hc]
      cases cs with
      | nil => simp [dropSp]
      | cons e es =>
        have he : pyIsSpace e = false := by
          have := (noTwo_cons.1 h).1 e (by simp)
          by_contra hee
          exact this ⟨hc, by simpa using hee⟩
        rw [dropSp_cons_neg he]
        simp
    · rw [dropSp_cons_neg (by simpa using hc)]
      omega

theorem dropSp_append_of_ne {a : List Char} (h : dropSp a ≠ []) (b : List Char) :
    dropSp (a ++ b) = dropSp a ++ b := by
  rw [dropSp, List.dropWhile_append]
  simp only [List.isEmpty_iff]
  rw [if_neg (by rw [← dropSp]; exact h), ← dropSp]

theorem getLast?_takeRight {l : List Char} {n : Nat} (h0 : 0 < n)
    (hn : n ≤ l.length) : (takeRight n l).getLast? = l.getLast? := by
  conv_rhs => rw [takeRight_decomp n l]
  rw [List.getLast?_append]
  have : (takeRight n l).length = n := by rw [takeRight_length]; omega
  have hne : takeRight n l ≠ [] := by
    intro hnil
    rw [hnil] at this
    simp at this
    omega
  cases hlast : (takeRight n l).getLast? with
  | none => exact absurd (List.getLast?_eq_none_iff.1 hlast) hne
  | some x => simp

theorem getLast?_cons_of_ne {c : Char} {l : List Char} (h : l ≠ []) :
    (c :: l).getLast? = l.getLast? := by
  cases l with
  | nil => exact absurd rfl h
  | cons e es => rw [List.getLast?_cons_cons]

theorem lastOk_append_right {a b : List Char} (hb : b ≠ [])
    (h : lastOkB b = true) : lastOkB (a ++ b) = true := by
  rw [lastOkB, List.getLast?_append]
  cases hlast : b.getLast? with
  | none => exact absurd (List.getLast?_eq_none_iff.1 hlast) hb
  | some x =>
    rw [lastOkB, hlast] at h
    simpa using h

theorem dropSp_length_le (l : List Char) : (dropSp l).length ≤ l.length := by
  obtain ⟨a, ha, _⟩ := dropSp_decomp l
  conv_rhs => rw [ha]
  simp

theorem take_append_le {a b : List Char} {k : Nat} (h : k ≤ a.length) :
    (a ++ b).take k = a.take k :=
  List.take_eq_left_iff.2 (Or.inr h)

theorem noTwo_spCons {s : List Char} (hsh : headOkB s = true)
    (hsnt : noTwoB s = true) : noTwoB (spChar :: s) = true := by
  refine noTwo_cons.2 ⟨?_, hsnt⟩
  intro d hd hcontra
  cases s with
  | nil => simp at hd
  | cons e es =>
    simp only [List.head?_cons, Option.mem_def, Option.some.injEq] at hd
    subst hd
    simp [headOkB, hcontra.2] at hsh

/-- The spine of the overlap claim: from a well-formed loop state, the chunk
list the loop produces satisfies `OvRel` between each consecutive pair. -/
theorem chunkGo_consec (mc oc : Nat) (hoc : 2 ≤ oc) :
    ∀ (ss : List (List Char)) (cur : List Char) (acc : List (List Char)),
      (∀ s ∈ ss, NiceSent s) →
      (cur = [] ∨ (lastOkB cur = true ∧ noTwoB cur = true)) →
      List.Chain' (OvRel oc) acc →
      (∀ a ∈ acc.getLast?, oc < a.length →
        cur ≠ [] ∧ ∃ k, 0 < k ∧ k ≤ (dropSp cur).length ∧
          (dropSp cur).take k = takeRight k a) →
      List.Chain' (OvRel oc) (chunkGo mc oc ss cur acc) := by
  intro ss
  induction ss with
  | nil =>
    intro cur acc _ hcur hchain hlink
    rw [chunkGo_nil]
    by_cases h : pyStrip cur = []
    · rw [if_pos h]; exact hchain
    · rw [if_neg h]
      rw [List.chain'_append]
      refine ⟨hchain, List.chain'_singleton _, ?_⟩
      intro a ha b hb
      have hbeq : b = pyStrip cur := Eq.symm (by simpa using hb)
      subst hbeq
      intro holc
      obtain ⟨hcne, k, hk0, hkle, htake⟩ := hlink a ha holc
      obtain ⟨hlast, -⟩ : lastOkB cur = true ∧ noTwoB cur = true := by
        rcases hcur with rfl | hh
        · exact absurd rfl hcne
        · exact hh
      rw [pyStrip_eq_dropSp_of_lastOk hlast]
      exact ⟨k, hk0, htake⟩
  | cons s ss ih =>
    intro cur acc hss hcur hchain hlink
    have hs : NiceSent s := hss s (List.mem_cons_self _ _)
    obtain ⟨hsne, hsh, hsl, hsnt⟩ := hs
    have hss' : ∀ u ∈ ss, NiceSent u := fun u hu => hss u (List.mem_cons_of_mem _ hu)
    by_cases hg : mc < cur.length + s.length ∧ cur ≠ []
    · obtain ⟨hlast, hnt⟩ : lastOkB cur = true ∧ noTwoB cur = true := by
        rcases hcur with rfl | h
        · exact absurd rfl hg.2
        · exact h
      have hstrip : pyStrip cur = dropSp cur := pyStrip_eq_dropSp_of_lastOk hlast
      rw [chunkGo_cons_overflow hg.1 hg.2]
      have hchain' : List.Chain' (OvRel oc) (acc ++ [pyStrip cur]) := by
        rw [List.chain'_append]
        refine ⟨hchain, List.chain'_singleton _, ?_⟩
        intro a ha b hb
        have hbeq : b = pyStrip cur := Eq.symm (by simpa using hb)
        subst hbeq
        intro holc
        obtain ⟨hcne, k, hk0, hkle, htake⟩ := hlink a ha holc
        rw [hstrip]
        exact ⟨k, hk0, htake⟩
      by_cases hov : 0 < oc ∧ oc < cur.length
      · rw [if_pos hov]
        have hTlen : (takeRight oc cur).length = oc := by
          rw [takeRight_length]; omega
        have hTnt : noTwoB (takeRight oc cur) = true := noTwo_takeRight hnt oc
        have hTd_len : 1 ≤ (dropSp (takeRight oc cur)).length := by
          have h1 := dropSp_length_ge hTnt
          omega
        have hTd_ne : dropSp (takeRight oc cur) ≠ [] := by
          intro hnil; rw [hnil] at hTd_len; simp at hTd_len
        have hTd_le : (dropSp (takeRight oc cur)).length ≤ oc := by
          have := dropSp_length_le (takeRight oc cur)
          omega
        have hTlast : (takeRight oc cur).getLast? = cur.getLast? :=
          getLast?_takeRight hov.1 (le_of_lt hov.2)
        refine ih _ _ hss' (Or.inr ⟨?_, ?_⟩) hchain' ?_
        · exact lastOk_append_right (by simp)
            (by rw [lastOkB, getLast?_cons_of_ne hsne]; exact hsl)
        · refine noTwo_append_of hTnt (noTwo_spCons hsh hsnt) ?_
          intro c hc d hd hcontra
          rw [hTlast] at hc
          have hc' : cur.getLast? = some c := hc
          rw [lastOkB, hc'] at hlast
          simp only [Option.all_some, Bool.not_eq_true'] at hlast
          rw [hcontra.1] at hlast
          cases hlast
        · intro a ha
          rw [List.getLast?_concat] at ha
          have haeq : a = pyStrip cur := Eq.symm (by simpa using ha)
          subst haeq
          rw [hstrip]
          intro holc
          refine ⟨by simp, (dropSp (takeRight oc cur)).length, hTd_len, ?_, ?_⟩
          · rw [dropSp_append_of_ne hTd_ne]
            simp
          · rw [dropSp_append_of_ne hTd_ne, List.take_left]
            obtain ⟨a1, ha1, -⟩ := dropSp_decomp (takeRight oc cur)
            have hcur_decomp : cur =
                (cur.take (cur.length - oc) ++ a1) ++ dropSp (takeRight oc cur) := by
              conv_lhs => rw [takeRight_decomp oc cur]
              rw [List.append_assoc, ← ha1]
            have h1 : takeRight (dropSp (takeRight oc cur)).length
                ((cur.take (cur.length - oc) ++ a1) ++ dropSp (takeRight oc cur)) =
                dropSp (takeRight oc cur) := takeRight_eq_self_append _ _
            rw [← hcur_decomp] at h1
            obtain ⟨a0, ha0, -⟩ := dropSp_decomp cur
            have h2 : takeRight (dropSp (takeRight oc cur)).length (a0 ++ dropSp cur) =
                takeRight (dropSp (takeRight oc cur)).length (dropSp cur) :=
              takeRight_append_le (by omega)
            rw [← ha0] at h2
            rw [← h2, h1]
      · rw [if_neg hov]
        refine ih _ _ hss' (Or.inr ⟨hsl, hsnt⟩) hchain' ?_
        intro a ha
        rw [List.getLast?_concat] at ha
        have haeq : a = pyStrip cur := Eq.symm (by simpa using ha)
        subst haeq
        rw [hstrip]
        intro holc
        have h1 : (dropSp cur).length ≤ cur.length := dropSp_length_le cur
        have h2 : ¬(0 < oc) ∨ ¬(oc < cur.length) := not_and_or.1 hov
        omega
    · rw [chunkGo_cons_fits hg]
      by_cases hcn : cur = []
      · rw [if_pos hcn]
        refine ih _ _ hss' (Or.inr ⟨hsl, hsnt⟩) hchain ?_
        intro a ha holc
        exact absurd hcn (hlink a ha holc).1
      · rw [if_neg hcn]
        obtain ⟨hlast, hnt⟩ : lastOkB cur = true ∧ noTwoB cur = true := by
          rcases hcur with rfl | h
          · exact absurd rfl hcn
          · exact h
        refine ih _ _ hss' (Or.inr ⟨?_, ?_⟩) hchain ?_
        · exact lastOk_append_right (by simp)
            (by rw [lastOkB, getLast?_cons_of_ne hsne]; exact hsl)
        · refine noTwo_append_of hnt (noTwo_spCons hsh hsnt) ?_
          intro c hc d hd hcontra
          have hc' : cur.getLast? = some c := hc
          rw [lastOkB, hc'] at hlast
          simp only [Option.all_some, Bool.not_eq_true'] at hlast
          rw [hcontra.1] at hlast
          cases hlast
        · intro a ha holc
          obtain ⟨hcne, k, hk0, hkle, htake⟩ := hlink a ha holc
          have hdne : dropSp cur ≠ [] := by
            intro hnil
            rw [hnil] at hkle
            simp at hkle
            omega
          refine ⟨by simp [hcn], k, hk0, ?_, ?_⟩
          · rw [dropSp_append_of_ne hdne]
            simp only [List.length_append]
            omega
          · rw [dropSp_append_of_ne hdne, take_append_le hkle]
            exact htake

/-- C3 counterexample: with `overlap = 100` and a pair of 3-character
sentences, the closed chunk (3 chars) is not longer than
`overlap_chars = 400`, so the next chunk is seeded with just the triggering
sentence and shares no non-empty tail of the previous chunk — the claim's
"chunk i+1 starts with a truncation of the tail of chunk i" fails. -/
theorem chunk_text_overlap_cex :
    chunk_text (s2l "aa. bb.") 1 100 = [s2l "aa.", s2l "bb."] ∧
      ¬∃ k, 0 < k ∧ (s2l "bb.").take k = takeRight k (s2l "aa.") := by
  constructor
  · decide
  · rintro ⟨k, hk0, heq⟩
    have hlen : (s2l "aa.").length = 3 := by decide
    by_cases hk : k ≤ 3
    · interval_cases k <;> revert heq <;> decide
    · rw [takeRight, show (s2l "aa.").length - k = 0 by omega, List.drop_zero] at heq
      rw [List.take_of_length_le (by rw [show (s2l "bb.").length = 3 from by decide]; omega)]
        at heq
      exact absurd heq (by decide)

/-- C3 (amended): at a cutover the next buffer is seeded with the last
`overlap_chars` characters of the accumulated buffer, a joining space, and
the triggering sentence whenever the buffer is longer than `overlap_chars`
(and with just the sentence otherwise); consequently, on whitespace-normalized
input with `overlap > 0`, whenever a chunk is longer than `overlap_chars`,
the following chunk starts with a non-empty tail of it. -/
theorem chunk_text_overlap (text : List Char) (mt ov : Nat)
    (ht : TextClean text) (hov : 1 ≤ ov) :
    (∀ (mc oc : Nat) (s cur : List Char) (ss acc : List (List Char)),
        mc < cur.length + s.length → cur ≠ [] →
        chunkGo mc oc (s :: ss) cur acc =
          chunkGo mc oc ss
            (if 0 < oc ∧ oc < cur.length then takeRight oc cur ++ spChar :: s else s)
            (acc ++ [pyStrip cur])) ∧
      List.Chain' (OvRel (ov * 4)) (chunk_text text mt ov) := by
  constructor
  · intro mc oc s cur ss acc h1 h2
    exact chunkGo_cons_overflow h1 h2 oc ss acc
  · rw [chunk_text]
    refine chunkGo_consec (mt * 4) (ov * 4) (by omega) _ _ _
      (splitSentences_nice ht) (Or.inl rfl) List.chain'_nil ?_
    intro a ha
    simp at ha

/-- Witness for the amended C3 on a three-sentence normalized input that
produces two chunks with a genuine overlap seed. -/
theorem chunk_text_overlap_witness :
    TextClean (s2l "abcdefgh. xy. pq.") ∧
      List.Chain' (OvRel (1 * 4)) (chunk_text (s2l "abcdefgh. xy. pq.") 3 1) :=
  ⟨by decide,
   (chunk_text_overlap (s2l "abcdefgh. xy. pq.") 3 1 (by decide) (by decide)).2⟩

/-! ### Claim C4: sentence coverage -/

theorem joinSp_cons_cons (s t : List Char) (ss : List (List Char)) :
    joinSp (s :: t :: ss) = s ++ spChar :: joinSp (t :: ss) := rfl

theorem joinSp_singleton (s : List Char) : joinSp [s] = s := rfl

theorem joinSp_ne_nil {g : List (List Char)} (hne : g ≠ [])
    (hg : ∀ s ∈ g, NiceSent s) : joinSp g ≠ [] := by
  cases g with
  | nil => exact absurd rfl hne
  | cons s rest =>
    cases rest with
    | nil => exact (hg s (by simp)).1
    | cons t ts =>
      rw [joinSp_cons_cons]
      simp

theorem joinSp_append_singleton {g : List (List Char)} (hne : g ≠ [])
    (s : List Char) : joinSp (g ++ [s]) = joinSp g ++ spChar :: s := by
  induction g with
  | nil => exact absurd rfl hne
  | cons x rest ih =>
    cases rest with
    | nil => rfl
    | cons y ys =>
      have h1 : (x :: y :: ys) ++ [s] = x :: y :: (ys ++ [s]) := by simp
      rw [h1, joinSp_cons_cons x y (ys ++ [s]),
        show y :: (ys ++ [s]) = (y :: ys) ++ [s] from by simp,
        ih (by simp), joinSp_cons_cons x y ys]
      simp

theorem headOk_joinSp {g : List (List Char)} (hg : ∀ s ∈ g, NiceSent s) :
    headOkB (joinSp g) = true := by
  cases g with
  | nil => rfl
  | cons s rest =>
    obtain ⟨hsne, hsh, -, -⟩ := hg s (by simp)
    cases rest with
    | nil => exact hsh
    | cons t ts =>
      rw [joinSp_cons_cons]
      cases s with
      | nil => exact absurd rfl hsne
      | cons c cs =>
        rw [List.cons_append, headOk_cons]
        simpa [headOkB] using hsh

theorem lastOk_joinSp {g : List (List Char)} (hg : ∀ s ∈ g, NiceSent s) :
    lastOkB (joinSp g) = true := by
  induction g with
  | nil => rfl
  | cons s rest ih =>
    obtain ⟨hsne, -, hsl, -⟩ := hg s (by simp)
    cases rest with
    | nil => exact hsl
    | cons t ts =>
      have hrest : ∀ u ∈ t :: ts, NiceSent u := fun u hu => hg u (List.mem_cons_of_mem _ hu)
      rw [joinSp_cons_cons]
      refine lastOk_append_right (by simp) ?_
      rw [lastOkB, getLast?_cons_of_ne (joinSp_ne_nil (by simp) hrest), ← lastOkB]
      exact ih hrest

theorem noTwo_joinSp {g : List (List Char)} (hg : ∀ s ∈ g, NiceSent s) :
    noTwoB (joinSp g) = true := by
  induction g with
  | nil => rfl
  | cons s rest ih =>
    obtain ⟨hsne, hsh, hsl, hsnt⟩ := hg s (by simp)
    cases rest with
    | nil => exact hsnt
    | cons t ts =>
      have hrest : ∀ u ∈ t :: ts, NiceSent u := fun u hu => hg u (List.mem_cons_of_mem _ hu)
      rw [joinSp_cons_cons]
      refine noTwo_append_of hsnt
        (noTwo_spCons (headOk_joinSp hrest) (ih hrest)) ?_
      intro c hc d hd hcontra
      have hc' : s.getLast? = some c := hc
      rw [lastOkB, hc'] at hsl
      simp only [Option.all_some, Bool.not_eq_true'] at hsl
      rw [hcontra.1] at hsl
      cases hsl

/-- Shape of the buffer's left strip: the pre-seed loses its leading
whitespace, the joined sentences stay intact. -/
theorem strip_pre_join {pre : List Char} {g : List (List Char)} (hne : g ≠ [])
    (hg : ∀ s ∈ g, NiceSent s)
    (hpre : pre = [] ∨
      (pre.getLast? = some spChar ∧ noTwoB pre = true ∧ dropSp pre ≠ [])) :
    pyStrip (pre ++ joinSp g) = dropSp pre ++ joinSp g := by
  have hlast : lastOkB (pre ++ joinSp g) = true :=
    lastOk_append_right (joinSp_ne_nil hne hg) (lastOk_joinSp hg)
  rw [pyStrip_eq_dropSp_of_lastOk hlast]
  rcases hpre with rfl | ⟨-, -, hdne⟩
  · simp only [List.nil_append, dropSp, List.dropWhile_nil]
    exact dropSp_eq_self_of_headOk (headOk_joinSp hg)
  · exact dropSp_append_of_ne hdne _

theorem noTwo_pre_join {pre : List Char} {g : List (List Char)}
    (hg : ∀ s ∈ g, NiceSent s)
    (hpre : pre = [] ∨
      (pre.getLast? = some spChar ∧ noTwoB pre = true ∧ dropSp pre ≠ [])) :
    noTwoB (pre ++ joinSp g) = true := by
  rcases hpre with rfl | ⟨hplast, hpnt, -⟩
  · simpa using noTwo_joinSp hg
  · refine noTwo_append_of hpnt (noTwo_joinSp hg) ?_
    intro c hc d hd hcontra
    have hd' : (joinSp g).head? = some d := hd
    have := headOk_joinSp hg
    rw [headOkB, hd'] at this
    simp only [Option.all_some, Bool.not_eq_true'] at this
    rw [hcontra.2] at this
    cases this

theorem lastOk_pre_join {pre : List Char} {g : List (List Char)} (hne : g ≠ [])
    (hg : ∀ s ∈ g, NiceSent s) : lastOkB (pre ++ joinSp g) = true :=
  lastOk_append_right (joinSp_ne_nil hne hg) (lastOk_joinSp hg)

/-- Decomposition of the loop's output: every emitted chunk is a trimmed
overlap seed followed by the space-join of a non-empty group of sentences,
and in order the groups partition the sentences still to be consumed. -/
theorem chunkGo_decomp (mc oc : Nat) (hoc : oc = 0 ∨ 2 ≤ oc) :
    ∀ (ss : List (List Char)) (pre : List Char) (g : List (List Char))
      (acc : List (List Char)),
      (∀ s ∈ ss, NiceSent s) → (∀ s ∈ g, NiceSent s) →
      (g = [] → pre = []) →
      (pre = [] ∨
        (pre.getLast? = some spChar ∧ noTwoB pre = true ∧ dropSp pre ≠ [])) →
      ∃ seeds groups, seeds.length = groups.length ∧
        chunkGo mc oc ss (pre ++ joinSp g) acc =
          acc ++ List.zipWith (fun p gr => p ++ joinSp gr) seeds groups ∧
        groups.flatten = g ++ ss ∧
        ∀ gr ∈ groups, gr ≠ [] := by
  intro ss
  induction ss with
  | nil =>
    intro pre g acc _ hg hgp hpre
    by_cases hgne : g = []
    · subst hgne
      rw [hgp rfl]
      refine ⟨[], [], rfl, ?_, rfl, by simp⟩
      rw [chunkGo_nil, if_pos (show pyStrip ([] ++ joinSp []) = [] from rfl)]
      simp
    · refine ⟨[dropSp pre], [g], rfl, ?_, by simp, by simpa using hgne⟩
      rw [chunkGo_nil_emit (by
        rw [strip_pre_join hgne hg hpre]
        intro h
        exact (joinSp_ne_nil hgne hg) (List.append_eq_nil.1 h).2)]
      rw [strip_pre_join hgne hg hpre]
      rfl
  | cons s ss ih =>
    intro pre g acc hss hg hgp hpre
    have hs : NiceSent s := hss s (by simp)
    have hss' : ∀ u ∈ ss, NiceSent u := fun u hu => hss u (List.mem_cons_of_mem _ hu)
    have hs_single : ∀ u ∈ [s], NiceSent u := by
      intro u hu; rw [List.mem_singleton] at hu; subst hu; exact hs
    by_cases hguard : mc < (pre ++ joinSp g).length + s.length ∧ pre ++ joinSp g ≠ []
    · have hgne : g ≠ [] := by
        intro hgnil
        subst hgnil
        rw [hgp rfl] at hguard
        exact hguard.2 rfl
      have hE : pyStrip (pre ++ joinSp g) = dropSp pre ++ joinSp g :=
        strip_pre_join hgne hg hpre
      rw [chunkGo_cons_overflow hguard.1 hguard.2]
      by_cases hov : 0 < oc ∧ oc < (pre ++ joinSp g).length
      · rw [if_pos hov]
        have hoc2 : 2 ≤ oc := by
          rcases hoc with rfl | h
          · exact absurd hov.1 (by omega)
          · exact h
        have hcurnt : noTwoB (pre ++ joinSp g) = true := noTwo_pre_join hg hpre
        have hcurlast : lastOkB (pre ++ joinSp g) = true := lastOk_pre_join hgne hg
        have hTnt : noTwoB (takeRight oc (pre ++ joinSp g)) = true :=
          noTwo_takeRight hcurnt oc
        have hTlen : (takeRight oc (pre ++ joinSp g)).length = oc := by
          rw [takeRight_length]; omega
        have hTd : 1 ≤ (dropSp (takeRight oc (pre ++ joinSp g))).length := by
          have := dropSp_length_ge hTnt
          omega
        have hTd_ne : dropSp (takeRight oc (pre ++ joinSp g)) ≠ [] := by
          intro h0; rw [h0] at hTd; simp at hTd
        have hTlast : (takeRight oc (pre ++ joinSp g)).getLast? =
            (pre ++ joinSp g).getLast? := getLast?_takeRight hov.1 (le_of_lt hov.2)
        have hseed : takeRight oc (pre ++ joinSp g) ++ spChar :: s =
            (takeRight oc (pre ++ joinSp g) ++ [spChar]) ++ joinSp [s] := by
          rw [joinSp_singleton, List.append_assoc]
          rfl
        have hpre_nt : noTwoB (takeRight oc (pre ++ joinSp g) ++ [spChar]) = true := by
          refine noTwo_append_of hTnt (show noTwoB [spChar] = true from rfl) ?_
          intro c hc d hd hcontra
          rw [hTlast] at hc
          have hc' : (pre ++ joinSp g).getLast? = some c := hc
          rw [lastOkB, hc'] at hcurlast
          simp only [Option.all_some, Bool.not_eq_true'] at hcurlast
          rw [hcontra.1] at hcurlast
          cases hcurlast
        have hpre_ds : dropSp (takeRight oc (pre ++ joinSp g) ++ [spChar]) ≠ [] := by
          rw [dropSp_append_of_ne hTd_ne]
          simp
        rw [hseed]
        obtain ⟨seeds', groups', hlen', heq', hflat', hne'⟩ :=
          ih (takeRight oc (pre ++ joinSp g) ++ [spChar]) [s]
            (acc ++ [pyStrip (pre ++ joinSp g)]) hss' hs_single
            (fun h => absurd h (by simp))
            (Or.inr ⟨List.getLast?_concat _, hpre_nt, hpre_ds⟩)
        refine ⟨dropSp pre :: seeds', g :: groups', by simp [hlen'], ?_, ?_, ?_⟩
        · rw [heq', hE, List.zipWith_cons_cons, List.append_assoc,
            List.singleton_append]
        · rw [List.flatten_cons, hflat']
          simp
        · intro gr hgr
          rcases List.mem_cons.1 hgr with rfl | hgr
          · exact hgne
          · exact hne' gr hgr
      · rw [if_neg hov]
        obtain ⟨seeds', groups', hlen', heq', hflat', hne'⟩ :=
          ih [] [s] (acc ++ [pyStrip (pre ++ joinSp g)]) hss' hs_single
            (fun h => absurd h (by simp)) (Or.inl rfl)
        simp only [List.nil_append, joinSp_singleton] at heq'
        refine ⟨dropSp pre :: seeds', g :: groups', by simp [hlen'], ?_, ?_, ?_⟩
        · rw [heq', hE, List.zipWith_cons_cons, List.append_assoc,
            List.singleton_append]
        · rw [List.flatten_cons, hflat']
          simp
        · intro gr hgr
          rcases List.mem_cons.1 hgr with rfl | hgr
          · exact hgne
          · exact hne' gr hgr
    · rw [chunkGo_cons_fits hguard]
      by_cases hc : pre ++ joinSp g = []
      · rw [if_pos hc]
        have hgnil : g = [] := by
          by_contra hgne
          exact (joinSp_ne_nil hgne hg) (List.append_eq_nil.1 hc).2
        obtain ⟨seeds', groups', hlen', heq', hflat', hne'⟩ :=
          ih [] [s] acc hss' hs_single (fun h => absurd h (by simp)) (Or.inl rfl)
        simp only [List.nil_append, joinSp_singleton] at heq'
        refine ⟨seeds', groups', hlen', heq', ?_, hne'⟩
        rw [hflat', hgnil]
        simp
      · rw [if_neg hc]
        have hgne : g ≠ [] := by
          intro h
          subst h
          exact hc (by rw [hgp rfl]; rfl)
        have hjoin : (pre ++ joinSp g) ++ spChar :: s = pre ++ joinSp (g ++ [s]) := by
          rw [List.append_assoc, ← joinSp_append_singleton hgne]
        rw [hjoin]
        obtain ⟨seeds', groups', hlen', heq', hflat', hne'⟩ :=
          ih pre (g ++ [s]) acc hss'
            (by
              intro u hu
              rcases List.mem_append.1 hu with hu | hu
              · exact hg u hu
              · rw [List.mem_singleton] at hu; subst hu; exact hs)
            (fun h => absurd h (by simp)) hpre
        refine ⟨seeds', groups', hlen', heq', ?_, hne'⟩
        rw [hflat']
        simp

theorem flatten_eq_nil_of_ne {gs : List (List (List Char))}
    (h : gs.flatten = []) (hne : ∀ g ∈ gs, g ≠ []) : gs = [] := by
  cases gs with
  | nil => rfl
  | cons g rest =>
    rw [List.flatten_cons] at h
    exact absurd (List.append_eq_nil.1 h).1 (hne g (by simp))

theorem flatten_eq_singleton {gs : List (List (List Char))} {x : List Char}
    (h : gs.flatten = [x]) (hne : ∀ g ∈ gs, g ≠ []) : gs = [[x]] := by
  cases gs with
  | nil => simp at h
  | cons g rest =>
    rw [List.flatten_cons] at h
    cases g with
    | nil => exact absurd rfl (hne [] (by simp))
    | cons y ys =>
      rw [List.cons_append, List.cons.injEq] at h
      obtain ⟨rfl, h2⟩ := h
      obtain ⟨rfl, h3⟩ := List.append_eq_nil.1 h2
      have : rest = [] :=
        flatten_eq_nil_of_ne h3 (fun u hu => hne u (List.mem_cons_of_mem _ hu))
      rw [this]

/-- C4 counterexample: on the non-normalized input `"  hi  "` the single
sentence is `"  hi  "` but the single chunk is the trimmed `"hi"`, so no
seed-plus-sentence-group decomposition reconstructs the sentence sequence. -/
theorem chunk_text_coverage_cex : ¬ SentenceCoverage (s2l "  hi  ") 800 100 := by
  rintro ⟨seeds, groups, hlen, heq, hflat, hne⟩
  rw [show splitSentences (s2l "  hi  ") = [s2l "  hi  "] from by decide] at hflat
  have hgroups : groups = [[s2l "  hi  "]] := flatten_eq_singleton hflat hne
  subst hgroups
  rw [show chunk_text (s2l "  hi  ") 800 100 = [s2l "hi"] from by decide] at heq
  obtain ⟨p, rfl⟩ : ∃ p, seeds = [p] := by
    cases seeds with
    | nil => simp at hlen
    | cons p ps =>
      cases ps with
      | nil => exact ⟨p, rfl⟩
      | cons q qs => simp at hlen
  rw [List.zipWith_cons_cons, List.zipWith_nil_left] at heq
  rw [List.cons.injEq] at heq
  have h1 := heq.1
  rw [joinSp_singleton] at h1
  have h2 := congrArg List.length h1
  rw [List.length_append, show (s2l "hi").length = 2 from by decide,
    show (s2l "  hi  ").length = 6 from by decide] at h2
  omega

/-- C4 (amended): on whitespace-normalized input, every chunk splits into an
overlap-seed plus the space-join of a non-empty group of sentences, and the
groups partition the sentence sequence exactly, in order — no sentence is
dropped or duplicated outside overlap seeds. -/
theorem chunk_text_coverage (text : List Char) (mt ov : Nat)
    (ht : TextClean text) : SentenceCoverage text mt ov := by
  have hoc : ov * 4 = 0 ∨ 2 ≤ ov * 4 := by omega
  obtain ⟨seeds, groups, hlen, heq, hflat, hne⟩ :=
    chunkGo_decomp (mt * 4) (ov * 4) hoc (splitSentences text) [] [] []
      (splitSentences_nice ht) (by intro u hu; simp at hu) (fun _ => rfl)
      (Or.inl rfl)
  refine ⟨seeds, groups, hlen, ?_, ?_, hne⟩
  · have h0 : ([] : List Char) ++ joinSp [] = ([] : List Char) := rfl
    rw [h0, List.nil_append] at heq
    rw [chunk_text, heq]
  · rw [hflat]
    simp

/-- Witness for the amended C4 on a three-sentence normalized input. -/
theorem chunk_text_coverage_witness :
    TextClean (s2l "Aa. Bb. Cc.") ∧ SentenceCoverage (s2l "Aa. Bb. Cc.") 2 1 :=
  ⟨by decide, chunk_text_coverage (s2l "Aa. Bb. Cc.") 2 1 (by decide)⟩

/-! ### Claim C7: retrieval validation -/

/-- C7 counterexample: a `/retrieve` request with `top_k = 0` passes request
validation, and `PineconeService.query` itself validates nothing — with a
backend that answers, the call returns results instead of failing with a
`ValidationError`. -/
theorem query_validation_cex :
    retrieveRequestValid (s2l "hi") 0 = true ∧
      pineconeQuery (fun _ => Except.ok [()]) 0 = Except.ok [()] ∧
      (Except.ok [()] : Except PyErr (List Unit)) ≠
        Except.error PyErr.validationError := by
  refine ⟨rfl, rfl, by simp⟩

/-- C7 (amended): requests through `/query` fail pydantic validation with a
`ValidationError` whenever `top_k ≤ 0` (the `QueryRequest` bounds are exactly
`1 ≤ top_k ≤ 20` with a non-empty query); the `/retrieve` model accepts any
`top_k`, and `PineconeService.query` never raises a `ValidationError` itself
— it forwards to the backend and wraps failures in a bare `Exception`. -/
theorem query_validation (q : List Char) (k : Int) :
    (k ≤ 0 → queryRequestValid q k = false) ∧
      (queryRequestValid q k = true ↔ 1 ≤ q.length ∧ 1 ≤ k ∧ k ≤ 20) ∧
      retrieveRequestValid q k = true ∧
      ∀ backend : Int → Except Unit (List Unit),
        pineconeQuery backend k ≠ Except.error PyErr.validationError := by
  refine ⟨?_, ?_, rfl, ?_⟩
  · intro hk
    have h1 : decide (1 ≤ k) = false := decide_eq_false (by omega)
    simp [queryRequestValid, h1]
  · simp [queryRequestValid, and_assoc]
  · intro backend
    cases hb : backend k with
    | ok ms => simp [pineconeQuery, hb]
    | error e => simp [pineconeQuery, hb]

/-- Witness for the amended C7 at `top_k = 0`. -/
theorem query_validation_witness :
    queryRequestValid (s2l "hello") 0 = false :=
  (query_validation (s2l "hello") 0).1 (by omega)

/-! ### Claim C9: message persistence and session timestamps -/

/-- C9 counterexample: saving a message (or a conversation) leaves the
`sessions` table untouched, so the session's `updated_at` keeps its old
value instead of being refreshed to the insertion time. -/
theorem save_message_no_refresh_cex :
    sessionUpdatedAt
        ((save_message ⟨[], [⟨s2l "s1", s2l "nm", s2l "chat", none, 0, 5⟩], 1⟩
            (s2l "s1") (s2l "user") (s2l "hi") none 9).1) (s2l "s1") = some 5 ∧
      sessionUpdatedAt
        (save_conversation ⟨[], [⟨s2l "s1", s2l "nm", s2l "chat", none, 0, 5⟩], 1⟩
          (s2l "s1") (s2l "q") (s2l "a") none 9) (s2l "s1") = some 5 ∧
      (5 : Nat) ≠ 9 := by
  refine ⟨rfl, rfl, by omega⟩

theorem find_update_sessions (l : List SessRow) (sid : List Char) (now : Nat)
    (h : (l.find? fun r => r.id == sid).isSome = true) :
    ((l.map fun r => if r.id = sid then { r with updated_at := now } else r).find?
        fun r => r.id == sid).map (fun r => r.updated_at) = some now := by
  induction l with
  | nil => simp at h
  | cons r rest ih =>
    by_cases hid : r.id = sid
    · rw [List.map_cons, if_pos hid,
        List.find?_cons_of_pos _ (by simpa using hid)]
      rfl
    · rw [List.map_cons, if_neg hid,
        List.find?_cons_of_neg _ (by simpa using hid)]
      rw [List.find?_cons_of_neg _ (by simpa using hid)] at h
      exact ih h

/-- C9 (amended): `save_message` appends exactly one message row and leaves
the sessions table unchanged; `save_conversation` appends the user question
then the assistant answer, also leaving sessions unchanged; only the
`POST /messages` endpoint refreshes the session's `updated_at`, by calling
`update_session_timestamp` after `save_message`. -/
theorem save_message_frame (st : DBState) (sid mtype content : List Char)
    (meta : Option (List Char)) (now : Nat) :
    ((save_message st sid mtype content meta now).1.sessions = st.sessions) ∧
      ((save_message st sid mtype content meta now).1.messages =
        st.messages ++ [⟨st.nextId, sid, mtype, content, now, meta⟩]) ∧
      (∀ q a r, (save_conversation st sid q a r now).sessions = st.sessions ∧
        (save_conversation st sid q a r now).messages =
          st.messages ++ [⟨st.nextId, sid, s2l "user", q, now, none⟩,
            ⟨st.nextId + 1, sid, s2l "assistant", a, now, r⟩]) ∧
      (∀ role c, (messagesEndpoint st sid role c now).messages =
          st.messages ++ [⟨st.nextId, sid, role, c, now, none⟩] ∧
        ((st.sessions.find? fun r => r.id == sid).isSome = true →
          sessionUpdatedAt (messagesEndpoint st sid role c now) sid = some now)) := by
  refine ⟨rfl, rfl, ?_, ?_⟩
  · intro q a r
    refine ⟨rfl, ?_⟩
    simp [save_conversation, save_message]
  · intro role c
    refine ⟨rfl, ?_⟩
    intro h
    exact find_update_sessions st.sessions sid now h

/-- Witness for the amended C9: the `/messages` endpoint does refresh the
timestamp of an existing session. -/
theorem save_message_frame_witness :
    sessionUpdatedAt
        (messagesEndpoint ⟨[], [⟨s2l "s1", s2l "nm", s2l "chat", none, 0, 5⟩], 1⟩
          (s2l "s1") (s2l "user") (s2l "hi") 9) (s2l "s1") = some 9 :=
  ((save_message_frame ⟨[], [⟨s2l "s1", s2l "nm", s2l "chat", none, 0, 5⟩], 1⟩
      (s2l "s1") (s2l "user") (s2l "hi") none 9).2.2.2 (s2l "user") (s2l "hi")).2
    (by decide)
